import Mathlib

/-!
Verification development for the monarch-phenology pipeline: a shallow
embedding, in Lean, of the pure decision logic of the repository's
ingestion engine (`ingest_inat.py`), feed client (`inat_client.py`) and
classification engine (`classify_openrouter.py`), together with theorems
settling the behavioural claims about those components.

Database rows are modelled as Lean structures, SQL statements as pure row
transformers, timestamps as integers, and Python strings as `List Char`.
-/

namespace MonarchPhenology

/- ## Python-style character/string primitives over `List Char` -/

/-- Python whitespace for `str.strip`: space, tab, newline, carriage return,
vertical tab, form feed. -/
def pyIsSpace (c : Char) : Bool :=
  c = ' ' || c = '\t' || c = '\n' || c = '\r' || c = Char.ofNat 11 || c = Char.ofNat 12

/-- Python `str.lstrip()`. -/
def pyLstrip (s : List Char) : List Char := s.dropWhile pyIsSpace

/-- Python `str.rstrip()`. -/
def pyRstrip (s : List Char) : List Char := (s.reverse.dropWhile pyIsSpace).reverse

/-- Python `str.strip()`. -/
def pyStrip (s : List Char) : List Char := pyLstrip (pyRstrip s)

/-- The guard `retry_after and retry_after.isdigit()` on an ASCII header
value: nonempty and all decimal digits. -/
def pyIsDigitStr (s : List Char) : Bool :=
  !s.isEmpty && s.all fun c => '0' ≤ c && c ≤ '9'

/-- `int(...)` on a digit string. -/
def strToNat (s : List Char) : Nat :=
  s.foldl (fun acc c => acc * 10 + (c.toNat - 48)) 0

/- ## `classify_openrouter.py`: retry policy -/

/-- `_retry_seconds_for_attempt(attempt, base, cap)`. `attempt` is 1-based;
on `Nat`, `attempt - 1` agrees with Python's `max(0, attempt - 1)`. -/
def retrySecondsForAttempt (attempt base cap : Nat) : Nat :=
  min cap (base * 2 ^ (attempt - 1))

/-- The exception classes `_classify_retry_policy` distinguishes: an
`httpx.HTTPStatusError` with its status and optional `Retry-After` header,
`httpx.TimeoutException`, other `httpx.RequestError`s, `JSONDecodeError`,
and everything else. -/
inductive GatewayError where
  | httpStatus (status : Nat) (retryAfterHeader : Option (List Char))
  | timeout
  | requestError
  | jsonDecodeError
  | otherError
deriving DecidableEq, Repr

/-- `_classify_retry_policy(error, attempt)`: the `(permanent,
retry_after_seconds)` pair (the human-readable reason string is dropped). -/
def classifyRetryPolicy (error : GatewayError) (attempt : Nat) : Bool × Nat :=
  match error with
  | .httpStatus status retryAfter =>
    if status = 429 then
      match retryAfter with
      | some h =>
        if pyIsDigitStr h then (false, strToNat h)
        else (false, retrySecondsForAttempt attempt 10 300)
      | none => (false, retrySecondsForAttempt attempt 10 300)
    else if 500 ≤ status ∧ status < 600 then
      (false, retrySecondsForAttempt attempt 30 1800)
    else
      (true, 0)
  | .timeout => (false, retrySecondsForAttempt attempt 10 600)
  | .requestError => (false, retrySecondsForAttempt attempt 10 600)
  | .jsonDecodeError => (false, retrySecondsForAttempt attempt 60 1800)
  | .otherError => (false, retrySecondsForAttempt attempt 60 3600)

/- ## `classify_openrouter.py`: classification rows and transitions -/

/-- The classification `status` column. -/
inductive CStatus where
  | pending
  | succeeded
  | failed
  | permanent_failed
deriving DecidableEq, Repr

/-- One row of the `classifications` table (the columns the claims touch;
`raw_response` and `output` are opaque payload identifiers). -/
structure ClassificationRow where
  photo_id : Nat
  model_provider : Nat
  model : Nat
  prompt_version : Nat
  status : CStatus
  attempt_count : Nat
  retry_after : Option Int
  last_attempt_at : Option Int
  input_image_url : Option (List Char)
  input_notes : Option (List Char)
  input_notes_truncated : Bool
  prompt_hash : Option Nat
  error : Option (List Char)
  raw_response : Option Nat
  output : Option Nat
deriving DecidableEq, Repr

/-- `_mark_failed`: the UPDATE re-reads the stored `attempt_count` in both
CASE WHEN conditions; `retry_after` was precomputed as `utcnow() +
timedelta(seconds=retry_after_seconds)`. -/
def markFailed (row : ClassificationRow) (maxAttempts retryAfterSeconds : Nat)
    (now : Int) (errMsg : List Char) (raw : Option Nat) : ClassificationRow :=
  { row with
    status := if row.attempt_count + 1 ≥ maxAttempts then .permanent_failed else .failed
    attempt_count := row.attempt_count + 1
    retry_after := if row.attempt_count + 1 ≥ maxAttempts then none
                   else some (now + (retryAfterSeconds : Int))
    last_attempt_at := some now
    error := some errMsg
    raw_response := match raw with | some r => some r | none => row.raw_response }

/-- `_mark_permanent_failed`. -/
def markPermanentFailed (row : ClassificationRow) (now : Int)
    (errMsg : List Char) (raw : Option Nat) : ClassificationRow :=
  { row with
    status := .permanent_failed
    attempt_count := row.attempt_count + 1
    retry_after := none
    last_attempt_at := some now
    error := some errMsg
    raw_response := match raw with | some r => some r | none => row.raw_response }

/-- The `except` branch of `classify_openrouter` (result processing):
`attempt = item.attempt_count + 1` uses the in-memory work item's count,
which may be stale with respect to the stored row. -/
def handleFailure (row : ClassificationRow) (itemAttemptCount : Nat)
    (e : GatewayError) (maxAttempts : Nat) (now : Int)
    (errMsg : List Char) (raw : Option Nat) : ClassificationRow :=
  let attempt := itemAttemptCount + 1
  let policy := classifyRetryPolicy e attempt
  if policy.1 ∨ attempt ≥ maxAttempts then
    markPermanentFailed row now errMsg raw
  else
    markFailed row maxAttempts policy.2 now errMsg raw

/-- The claims' description of an exception classified permanent: an HTTP
4xx status other than 429. -/
def isPermanent4xx : GatewayError → Prop
  | .httpStatus s _ => 400 ≤ s ∧ s < 500 ∧ s ≠ 429
  | _ => False

/-- A concrete classification row used by witnesses. -/
def sampleRow : ClassificationRow :=
  { photo_id := 7
    model_provider := 1
    model := 2
    prompt_version := 3
    status := .pending
    attempt_count := 0
    retry_after := none
    last_attempt_at := none
    input_image_url := none
    input_notes := none
    input_notes_truncated := false
    prompt_hash := none
    error := none
    raw_response := none
    output := none }

/- ## `inat_client.py`: `list_observations` retry loop -/

/-- What a single request attempt can produce: a decoded page, an
`HTTPStatusError` (status and optional `Retry-After` header), or a
timeout/connection error. -/
inductive FetchOutcome where
  | success (data : Nat)
  | httpError (status : Nat) (retryAfter : Option (List Char))
  | netError
deriving DecidableEq, Repr

/-- How the modelled loop ends: returning a page, raising an error, or
running out of modelled outcomes (the real loop would keep requesting). -/
inductive FetchResult where
  | ok (data : Nat)
  | raised (o : FetchOutcome)
  | exhausted
deriving DecidableEq, Repr

/-- The retry loop of `InatClient.list_observations`, driven by the list of
outcomes successive requests produce. Returns the result together with the
backoff sleeps performed (the politeness sleep after success is not
recorded). `attempt` starts at 0 and is incremented on each failure before
the bound check. -/
def listObsLoop (maxRetries backoff : Nat) :
    List FetchOutcome → Nat → FetchResult × List Nat
  | [], _ => (.exhausted, [])
  | o :: rest, attempt =>
    match o with
    | .success d => (.ok d, [])
    | .httpError status ra =>
      if attempt + 1 > maxRetries then (.raised (.httpError status ra), [])
      else if status = 429 then
        let sleep := match ra with
          | some h => if pyIsDigitStr h then strToNat h else backoff * (attempt + 1)
          | none => backoff * (attempt + 1)
        let r := listObsLoop maxRetries backoff rest (attempt + 1)
        (r.1, sleep :: r.2)
      else if 500 ≤ status ∧ status < 600 then
        let r := listObsLoop maxRetries backoff rest (attempt + 1)
        (r.1, backoff * (attempt + 1) :: r.2)
      else (.raised (.httpError status ra), [])
    | .netError =>
      if attempt + 1 > maxRetries then (.raised .netError, [])
      else
        let r := listObsLoop maxRetries backoff rest (attempt + 1)
        (r.1, backoff * (attempt + 1) :: r.2)

/-- The claims' description of a transient outcome: HTTP 429, HTTP 5xx, or a
timeout/connection error. -/
def transientOutcome : FetchOutcome → Prop
  | .httpError s _ => s = 429 ∨ (500 ≤ s ∧ s < 600)
  | .netError => True
  | .success _ => False

/-- The sleep the spec schedules for the failure at 1-based attempt `a`:
the numeric `Retry-After` header on a 429 when present, else
`retry_backoff_seconds × attempt`. -/
def specSleepFor (backoff a : Nat) (o : FetchOutcome) : Nat :=
  match o with
  | .httpError s ra =>
    if s = 429 then
      match ra with
      | some h => if pyIsDigitStr h then strToNat h else backoff * a
      | none => backoff * a
    else backoff * a
  | .success _ => backoff * a
  | .netError => backoff * a

/-- The sleeps the spec schedules for a run of failures starting after
`attempt` prior failures. -/
def specRetrySleeps (backoff attempt : Nat) : List FetchOutcome → List Nat
  | [] => []
  | o :: rest => specSleepFor backoff (attempt + 1) o :: specRetrySleeps backoff (attempt + 1) rest

/- ## `ingest_inat.py`: paging loop and cursor update -/

/-- A remote observation as the cursor logic sees it: its parsed
`updated_at`, or `none` when the field is absent or unparseable. -/
structure RemoteObs where
  updated_at : Option Int
deriving DecidableEq, Repr

/-- One page's worth of the running-maximum update
`if o.updated_at and (max_updated_at is None or o.updated_at > max_updated_at)`. -/
def pageMax (maxU : Option Int) (results : List RemoteObs) : Option Int :=
  results.foldl
    (fun acc o =>
      match o.updated_at with
      | none => acc
      | some u =>
        match acc with
        | none => some u
        | some m => if u > m then some u else acc)
    maxU

/-- The paging loop of `ingest_inat`, driven by the successive `results`
arrays the client returns (an exhausted list behaves like an empty page).
Accumulates the observation count and the maximum `updated_at` seen;
`maxPages = 0` means unlimited (`if max_pages_per_run and page > ...`). -/
def ingestLoop (maxPages : Nat) :
    List (List RemoteObs) → Nat → Nat → Option Int → Nat × Option Int
  | [], _, obsCount, maxU => (obsCount, maxU)
  | results :: rest, page, obsCount, maxU =>
    if maxPages ≠ 0 ∧ page > maxPages then (obsCount, maxU)
    else if results.isEmpty then (obsCount, maxU)
    else ingestLoop maxPages rest (page + 1) (obsCount + results.length) (pageMax maxU results)

/-- The observations the run processes, in order (same loop structure as
`ingestLoop`). -/
def processedObs (maxPages : Nat) : List (List RemoteObs) → Nat → List RemoteObs
  | [], _ => []
  | results :: rest, page =>
    if maxPages ≠ 0 ∧ page > maxPages then []
    else if results.isEmpty then []
    else results ++ processedObs maxPages rest (page + 1)

/-- `ingest_inat` reduced to its cursor effect: given the previously stored
cursor (already parsed) and the pages the feed returns, produce the cursor
stored after the run and the processed-observation count. The cursor is
rewritten only when `max_updated_at is not None`. -/
def ingestInat (stored : Option Int) (pages : List (List RemoteObs))
    (maxPages : Nat) : Option Int × Nat :=
  let r := ingestLoop maxPages pages 1 0 none
  ((match r.2 with
    | some m => some m
    | none => stored), r.1)

/-- The parsed `updated_at` values of the observations a run processes. -/
def processedUpdatedAts (maxPages : Nat) (pages : List (List RemoteObs)) : List Int :=
  (processedObs maxPages pages 1).filterMap (fun o => o.updated_at)

/- ## `inat_client.py`: `best_photo_urls` -/

/-- Python's substring test `pat in s`. -/
def isSubstr (pat : List Char) : List Char → Bool
  | [] => pat.isEmpty
  | c :: rest => pat.isPrefixOf (c :: rest) || isSubstr pat rest

/-- Fuel-driven worker for Python `str.replace`: replaces leftmost
non-overlapping occurrences of `pat` by `rep`; `fuel ≥ length of the text`
makes the cutoff unreachable. -/
def replaceAllGo (pat rep : List Char) : Nat → List Char → List Char
  | _, [] => []
  | 0, s => s
  | fuel + 1, c :: rest =>
    if pat ≠ [] ∧ pat.isPrefixOf (c :: rest) then
      rep ++ replaceAllGo pat rep fuel ((c :: rest).drop pat.length)
    else
      c :: replaceAllGo pat rep fuel rest

/-- Python `s.replace(pat, rep)` for a nonempty pattern. -/
def replaceAll (s pat rep : List Char) : List Char :=
  replaceAllGo pat rep s.length s

/-- The literal `square.`. -/
def sqDot : List Char := ['s', 'q', 'u', 'a', 'r', 'e', '.']

/-- The literal `/square.`. -/
def slashSquareDot : List Char := ['/', 's', 'q', 'u', 'a', 'r', 'e', '.']

/-- The literal `/large.`. -/
def slashLargeDot : List Char := ['/', 'l', 'a', 'r', 'g', 'e', '.']

/-- The literal `/photos/`. -/
def slashPhotos : List Char := ['/', 'p', 'h', 'o', 't', 'o', 's', '/']

/-- The literal `/square.jpg`. -/
def slashSquareJpg : List Char :=
  ['/', 's', 'q', 'u', 'a', 'r', 'e', '.', 'j', 'p', 'g']

/-- The literal `/original.jpeg`. -/
def slashOriginalJpeg : List Char :=
  ['/', 'o', 'r', 'i', 'g', 'i', 'n', 'a', 'l', '.', 'j', 'p', 'e', 'g']

/-- `best_photo_urls(photo)` for a photo JSON whose `url` and `original_url`
fields are strings or absent. Returns `(square, large, original)`. -/
def best_photo_urls (url original_url : Option (List Char)) :
    Option (List Char) × Option (List Char) × Option (List Char) :=
  let square := url
  let large : Option (List Char) :=
    match square with
    | some s =>
      if isSubstr sqDot s then some (replaceAll s slashSquareDot slashLargeDot)
      else none
    | none => none
  let original : Option (List Char) :=
    match original_url with
    | some o => some o
    | none =>
      match square with
      | some s =>
        if isSubstr slashPhotos s then
          if replaceAll s slashSquareJpg slashOriginalJpeg ≠ s then
            some (replaceAll s slashSquareJpg slashOriginalJpeg)
          else none
        else none
      | none => none
  (square, large, original)

/-- A thumbnail URL containing `square.` but not `/square.`:
`http://h/ph/asquare.jpg`. -/
def urlNoSeg : List Char :=
  ['h', 't', 't', 'p', ':', '/', '/', 'h', '/', 'p', 'h', '/',
   'a', 's', 'q', 'u', 'a', 'r', 'e', '.', 'j', 'p', 'g']

/- ## `classify_openrouter.py`: `_select_next_work` and `_upsert_pending` -/

/-- One row of the `photos` table (the columns the queue query touches). -/
structure Photo where
  photo_id : Nat
  observation_id : Nat
  url_large : Option (List Char)
  url_square : Option (List Char)
  url_original : Option (List Char)
deriving DecidableEq, Repr

/-- One row of the `observations` table (the columns the queue query
touches). -/
structure Observation where
  observation_id : Nat
  description : Option (List Char)
deriving DecidableEq, Repr

/-- The relational store as the queue query sees it. -/
structure Db where
  observations : List Observation
  photos : List Photo
  classifications : List ClassificationRow
deriving DecidableEq, Repr

/-- A selected work item (`WorkItem` dataclass). -/
structure WorkItem where
  photo_id : Nat
  observation_id : Nat
  image_url : List Char
  notes : List Char
  attempt_count : Nat
deriving DecidableEq, Repr

/-- `COALESCE(p.url_large, p.url_square, p.url_original)`. -/
def coalesceUrl (p : Photo) : Option (List Char) :=
  match p.url_large with
  | some u => some u
  | none =>
    match p.url_square with
    | some u => some u
    | none => p.url_original

/-- The LEFT JOIN partner: the unique index on
`(photo_id, model_provider, model, prompt_version)` guarantees at most one
matching row, so the first match is the row. -/
def findClassification (cs : List ClassificationRow) (pid mp m pv : Nat) :
    Option ClassificationRow :=
  cs.find? fun c =>
    c.photo_id == pid && c.model_provider == mp && c.model == m
      && c.prompt_version == pv

/-- The inner JOIN partner on `observations`. -/
def findObservation (os : List Observation) (oid : Nat) : Option Observation :=
  os.find? fun o => o.observation_id == oid

/-- The WHERE clause of `_select_next_work` together with the inner JOIN:
a non-null coalesced URL, an existing parent observation, and either no
classification row for the tuple or a `failed` row whose `retry_after` is
null or not after `now()`. -/
def workEligible (db : Db) (mp m pv : Nat) (now : Int) (p : Photo) : Bool :=
  (coalesceUrl p).isSome &&
  (findObservation db.observations p.observation_id).isSome &&
  (match findClassification db.classifications p.photo_id mp m pv with
   | none => true
   | some c =>
     c.status == .failed &&
     (match c.retry_after with
      | none => true
      | some t => decide (t ≤ now)))

/-- `_select_next_work`: eligible photos in ascending `photo_id` order,
limited to `limit`, mapped to work items (`notes` is
`str(r["notes"] or "")`, `attempt_count` is `COALESCE(c.attempt_count, 0)`). -/
def selectNextWork (db : Db) (mp m pv : Nat) (limit : Nat) (now : Int) :
    List WorkItem :=
  ((((db.photos.filter (workEligible db mp m pv now)).mergeSort
      fun a b => decide (a.photo_id ≤ b.photo_id)).take limit).map fun p =>
    { photo_id := p.photo_id
      observation_id := p.observation_id
      image_url := (coalesceUrl p).getD []
      notes :=
        match findObservation db.observations p.observation_id with
        | some o => o.description.getD []
        | none => []
      attempt_count :=
        match findClassification db.classifications p.photo_id mp m pv with
        | some c => c.attempt_count
        | none => 0 })

/-- `_upsert_pending`: the reservation INSERT ... ON CONFLICT DO UPDATE as a
row transformer; `old` is the row already present for the conflict target,
if any (unset columns of a fresh row take the schema defaults). -/
def upsertPending (item : WorkItem) (mp m pv pHash : Nat)
    (inputNotes : List Char) (truncated : Bool)
    (old : Option ClassificationRow) : ClassificationRow :=
  match old with
  | none =>
    { photo_id := item.photo_id
      model_provider := mp
      model := m
      prompt_version := pv
      status := .pending
      attempt_count := 0
      retry_after := none
      last_attempt_at := none
      input_image_url := some item.image_url
      input_notes := some inputNotes
      input_notes_truncated := truncated
      prompt_hash := some pHash
      error := none
      raw_response := none
      output := none }
  | some row =>
    { row with
      status := .pending
      prompt_hash := some pHash
      input_image_url := some item.image_url
      input_notes := some inputNotes
      input_notes_truncated := truncated
      error := none }

/- ## `classify_openrouter.py`: tolerant JSON-object recovery -/

/-- Python `s.split("\n")`. -/
def pySplitNl : List Char → List (List Char)
  | [] => [[]]
  | c :: rest =>
    if c = '\n' then [] :: pySplitNl rest
    else
      match pySplitNl rest with
      | h :: t => (c :: h) :: t
      | [] => [[c]]

/-- Python `"\n".join(parts)`. -/
def pyJoinNl : List (List Char) → List Char
  | [] => []
  | [p] => p
  | p :: rest => p ++ '\n' :: pyJoinNl rest

/-- `_strip_code_fences`, the first-line drop: `parts = stripped.split("\n")`,
and when `len(parts) >= 2 and parts[0].startswith("```")`, rejoin without the
first line. -/
def stripCodeFencesStep2 (stripped : List Char) : List Char :=
  let bt : List Char := ['`', '`', '`']
  let parts := pySplitNl stripped
  if 2 ≤ parts.length ∧ bt.isPrefixOf (parts.headD []) then pyJoinNl parts.tail
  else stripped

/-- `_strip_code_fences`, the trailing-fence drop: when
`stripped.rstrip().endswith("```")`, rstrip, cut the final three backticks,
rstrip again. -/
def stripCodeFencesStep3 (s2 : List Char) : List Char :=
  let bt : List Char := ['`', '`', '`']
  if bt.isSuffixOf (pyRstrip s2) then
    pyRstrip ((pyRstrip s2).take ((pyRstrip s2).length - 3))
  else s2

/-- `_strip_code_fences`: strip, and when the text starts with a fence,
drop the fence line and the trailing fence; strip the result. -/
def stripCodeFences (text : List Char) : List Char :=
  let bt : List Char := ['`', '`', '`']
  let stripped := pyStrip text
  if bt.isPrefixOf stripped then
    pyStrip (stripCodeFencesStep3 (stripCodeFencesStep2 stripped))
  else
    pyStrip stripped

/-- The scanning loop of `_extract_first_json_object` from the first `{`:
brace depth, string-literal and escape state, and the accumulated slice
`text[start : i + 1]`; `none` models the raised `JSONDecodeError`. -/
def extractCore : List Char → Int → Bool → Bool → List Char → Option (List Char)
  | [], _, _, _, _ => none
  | c :: rest, depth, inString, escape, acc =>
    if inString then
      if escape then extractCore rest depth inString false (acc ++ [c])
      else if c = '\\' then extractCore rest depth inString true (acc ++ [c])
      else if c = '\"' then extractCore rest depth false escape (acc ++ [c])
      else extractCore rest depth inString escape (acc ++ [c])
    else
      if c = '\"' then extractCore rest depth true escape (acc ++ [c])
      else if c = '{' then extractCore rest (depth + 1) inString escape (acc ++ [c])
      else if c = '}' then
        if depth - 1 = 0 then some (acc ++ [c])
        else extractCore rest (depth - 1) inString escape (acc ++ [c])
      else extractCore rest depth inString escape (acc ++ [c])

/-- `_extract_first_json_object`: strip fences, find the first `{`, scan. -/
def extractFirstJsonObject (text : List Char) : Option (List Char) :=
  let t := stripCodeFences text
  let fromBrace := t.dropWhile fun c => c ≠ '{'
  if fromBrace.isEmpty then none
  else extractCore fromBrace 0 false false []

/-- JSON values, for expressing "a valid JSON object" and what `json.loads`
returns. -/
inductive Json where
  | null : Json
  | bool (b : Bool) : Json
  | num (n : Int) : Json
  | str (s : List Char) : Json
  | arr (elems : List Json) : Json
  | obj (fields : List (List Char × Json)) : Json

/-- JSON string escaping (the escapes relevant to the scanner: quote,
backslash, and the common control characters). -/
def escChar (c : Char) : List Char :=
  if c = '\"' then ['\\', '\"']
  else if c = '\\' then ['\\', '\\']
  else if c = '\n' then ['\\', 'n']
  else if c = '\r' then ['\\', 'r']
  else if c = '\t' then ['\\', 't']
  else [c]

/-- Escape a whole string body. -/
def escStr : List Char → List Char
  | [] => []
  | c :: rest => escChar c ++ escStr rest

/-- A decimal digit character. -/
def digitChar : Nat → Char
  | 0 => '0'
  | 1 => '1'
  | 2 => '2'
  | 3 => '3'
  | 4 => '4'
  | 5 => '5'
  | 6 => '6'
  | 7 => '7'
  | 8 => '8'
  | _ => '9'

/-- Decimal digits of a natural number (fuel-driven; `fuel ≥ n` suffices). -/
def natCharsAux : Nat → Nat → List Char
  | 0, n => [digitChar n]
  | fuel + 1, n =>
    if n < 10 then [digitChar n]
    else natCharsAux fuel (n / 10) ++ [digitChar (n % 10)]

/-- Decimal digits of a natural number. -/
def natChars (n : Nat) : List Char := natCharsAux n n

/-- Decimal representation of an integer. -/
def intChars (n : Int) : List Char :=
  if n < 0 then '-' :: natChars n.natAbs else natChars n.toNat

/-- The keyword `null`. -/
def litNull : List Char := ['n', 'u', 'l', 'l']

/-- The keyword `true`. -/
def litTrue : List Char := ['t', 'r', 'u', 'e']

/-- The keyword `false`. -/
def litFalse : List Char := ['f', 'a', 'l', 's', 'e']

mutual

/-- Canonical serialization of a JSON value (compact separators). A string
of this language is a valid JSON document. -/
def serialize : Json → List Char
  | .null => litNull
  | .bool true => litTrue
  | .bool false => litFalse
  | .num n => intChars n
  | .str s => '\"' :: escStr s ++ ['\"']
  | .arr elems => '[' :: serializeList elems ++ [']']
  | .obj fields => '{' :: serializeFields fields ++ ['}']

/-- Comma-separated serialization of array elements. -/
def serializeList : List Json → List Char
  | [] => []
  | [v] => serialize v
  | v :: rest => serialize v ++ ',' :: serializeList rest

/-- Comma-separated serialization of object members. -/
def serializeFields : List (List Char × Json) → List Char
  | [] => []
  | [(k, v)] => '\"' :: escStr k ++ '\"' :: ':' :: serialize v
  | (k, v) :: rest =>
    '\"' :: escStr k ++ '\"' :: ':' :: serialize v ++ ',' :: serializeFields rest

end

/-- The `content` argument of `_parse_model_json`: an already-decoded JSON
object (a `dict`), a string, or anything else (`TypeError`). -/
inductive Content where
  | obj (fields : List (List Char × Json))
  | str (s : List Char)
  | other

/-- The recovery path of `_parse_model_json`: extract the first balanced
object text, decode it, and fail unless the decoded value is an object. -/
def extractAndDecode (loads : List Char → Option Json) (s : List Char) :
    Option Json :=
  match extractFirstJsonObject s with
  | none => none
  | some candidate =>
    match loads candidate with
    | none => none
    | some v =>
      match v with
      | .obj fields => some (.obj fields)
      | _ => none

/-- `_parse_model_json`, parameterized by the behaviour of `json.loads`
(`none` models a raised `JSONDecodeError`). A direct decode that fails or
yields a non-object falls through to `_extract_first_json_object`; a final
value that is not an object fails. -/
def parseModelJson (loads : List Char → Option Json) : Content → Option Json
  | .obj fields => some (.obj fields)
  | .other => none
  | .str s =>
    match loads s with
    | none => extractAndDecode loads s
    | some v =>
      match v with
      | .obj fields => some (.obj fields)
      | _ => extractAndDecode loads s

/-- An input of the claimed shape:
`<prose1>\n` + "```json" + `\n` + `S` + `\n` + "```" + `\n` + `<prose2>`. -/
def fencedInput (prose1 prose2 S : List Char) : List Char :=
  (prose1 ++ ['\n', '`', '`', '`', 'j', 's', 'o', 'n', '\n']) ++ S
    ++ ('\n' :: '`' :: '`' :: '`' :: ('\n' :: prose2))

/-- A character the scanner treats as inert outside strings, and that is not
a newline. -/
def CharOK (c : Char) : Prop :=
  c ≠ '\"' ∧ c ≠ '{' ∧ c ≠ '}' ∧ c ≠ '\n'

instance (c : Char) : Decidable (CharOK c) :=
  inferInstanceAs (Decidable (c ≠ '\"' ∧ c ≠ '{' ∧ c ≠ '}' ∧ c ≠ '\n'))

/-- A chunk the scanner passes through outside strings without returning,
changing depth, or entering a string. -/
def NeutralRun (l : List Char) : Prop :=
  ∀ (rest acc : List Char) (d : Int), 1 ≤ d →
    extractCore (l ++ rest) d false false acc
      = extractCore rest d false false (acc ++ l)

/-- A chunk the scanner passes through inside a string literal, ending in
the same in-string, non-escape state. -/
def StringRun (l : List Char) : Prop :=
  ∀ (rest acc : List Char) (d : Int),
    extractCore (l ++ rest) d true false acc
      = extractCore rest d true false (acc ++ l)

/-- Neutral for the scanner and free of newlines. -/
def GoodRun (l : List Char) : Prop := NeutralRun l ∧ '\n' ∉ l

/- ## Theorems -/

/-- Under `httpx.raise_for_status` semantics every `HTTPStatusError` carries a
4xx or 5xx status; with that restriction, `_classify_retry_policy` returns
`permanent = True` exactly on a 4xx status other than 429. -/
theorem classifyRetryPolicy_fst_iff (e : GatewayError) (a : Nat)
    (hrange : ∀ s h, e = .httpStatus s h → 400 ≤ s ∧ s < 600) :
    ((classifyRetryPolicy e a).1 = true ↔ isPermanent4xx e) := by
  cases e with
  | httpStatus s h =>
    obtain ⟨h4, h6⟩ := hrange s h rfl
    by_cases h429 : s = 429
    · subst h429
      cases h with
      | none => simp [classifyRetryPolicy, isPermanent4xx]
      | some hdr =>
        by_cases hd : pyIsDigitStr hdr <;>
          simp [classifyRetryPolicy, isPermanent4xx, hd]
    · by_cases h5 : 500 ≤ s
      · have hs : 500 ≤ s ∧ s < 600 := ⟨h5, h6⟩
        simp only [classifyRetryPolicy, if_neg h429, if_pos hs, isPermanent4xx]
        constructor
        · intro hfalse; exact absurd hfalse (by simp)
        · rintro ⟨-, hlt, -⟩; omega
      · have hlt : s < 500 := by omega
        simp only [classifyRetryPolicy, if_neg h429, isPermanent4xx]
        rw [if_neg (by omega)]
        simp only [true_iff]
        exact ⟨h4, hlt, h429⟩
  | timeout => simp [classifyRetryPolicy, isPermanent4xx]
  | requestError => simp [classifyRetryPolicy, isPermanent4xx]
  | jsonDecodeError => simp [classifyRetryPolicy, isPermanent4xx]
  | otherError => simp [classifyRetryPolicy, isPermanent4xx]

/-- C1: when a classification attempt raises, the row is set to
`permanent_failed` with null `retry_after` if the exception is permanent (an
HTTP 4xx other than 429) or `attempt_count + 1 ≥ max_attempts`; otherwise to
`failed` with `retry_after = now + retry_seconds`; in every case
`attempt_count` is incremented by exactly one and `last_attempt_at` updated.
Stated for a controller whose in-memory `attempt_count` agrees with the
stored row, as is the case for an item read by `_select_next_work`. -/
theorem C1_failure_transition (row : ClassificationRow) (e : GatewayError)
    (maxAttempts : Nat) (now : Int) (errMsg : List Char) (raw : Option Nat)
    (r : ClassificationRow)
    (hrange : ∀ s h, e = .httpStatus s h → 400 ≤ s ∧ s < 600)
    (hr : r = handleFailure row row.attempt_count e maxAttempts now errMsg raw) :
    (r.attempt_count = row.attempt_count + 1 ∧ r.last_attempt_at = some now) ∧
    ((isPermanent4xx e ∨ row.attempt_count + 1 ≥ maxAttempts) →
      r.status = .permanent_failed ∧ r.retry_after = none) ∧
    (¬ isPermanent4xx e → row.attempt_count + 1 < maxAttempts →
      r.status = .failed ∧
      r.retry_after =
        some (now + ((classifyRetryPolicy e (row.attempt_count + 1)).2 : Int))) := by
  subst hr
  have hiff := classifyRetryPolicy_fst_iff e (row.attempt_count + 1) hrange
  unfold handleFailure
  by_cases hc :
      (classifyRetryPolicy e (row.attempt_count + 1)).1 = true ∨
        row.attempt_count + 1 ≥ maxAttempts
  · rw [if_pos hc]
    refine ⟨⟨rfl, rfl⟩, fun _ => ⟨rfl, rfl⟩, ?_⟩
    intro hnp hlt
    rcases hc with hb | hge
    · exact absurd (hiff.mp hb) hnp
    · omega
  · rw [if_neg hc]
    push_neg at hc
    obtain ⟨hb, hge⟩ := hc
    have hcond : ¬ row.attempt_count + 1 ≥ maxAttempts := by omega
    refine ⟨⟨rfl, rfl⟩, ?_, ?_⟩
    · rintro (hperm | hmax)
      · exact absurd (hiff.mpr hperm) hb
      · omega
    · intro _ _
      constructor
      · simp only [markFailed, if_neg hcond]
      · simp only [markFailed, if_neg hcond]

/-- Witness for C1 at a concrete input: a timeout on a fresh row with
`max_attempts = 3` yields status `failed` and `retry_after = now + 10`. -/
theorem C1_failure_transition_witness :
    (handleFailure sampleRow sampleRow.attempt_count .timeout 3 100 [] none).status
        = CStatus.failed ∧
    (handleFailure sampleRow sampleRow.attempt_count .timeout 3 100 [] none).retry_after
        = some 110 := by
  have h := C1_failure_transition sampleRow .timeout 3 100 [] none _
    (by intro s hh he; cases he) rfl
  have h3 := h.2.2 (by simp [isPermanent4xx]) (by decide)
  refine ⟨h3.1, ?_⟩
  rw [h3.2]
  decide

/-- C3: the transient retry delays of `_classify_retry_policy` at attempt
`k ≥ 1` follow `min(c, b·2^(k-1))` with the claimed `(b, c)` per error class,
except an HTTP 429 with a numeric `Retry-After` header, which uses the header
value. -/
theorem C3_retry_schedule (k : Nat) (_hk : 1 ≤ k) :
    (∀ hdr, pyIsDigitStr hdr = true →
      classifyRetryPolicy (.httpStatus 429 (some hdr)) k = (false, strToNat hdr)) ∧
    (∀ hdr, pyIsDigitStr hdr = false →
      classifyRetryPolicy (.httpStatus 429 (some hdr)) k
        = (false, min 300 (10 * 2 ^ (k - 1)))) ∧
    classifyRetryPolicy (.httpStatus 429 none) k
        = (false, min 300 (10 * 2 ^ (k - 1))) ∧
    (∀ s hdr, 500 ≤ s → s < 600 →
      classifyRetryPolicy (.httpStatus s hdr) k
        = (false, min 1800 (30 * 2 ^ (k - 1)))) ∧
    classifyRetryPolicy .timeout k = (false, min 600 (10 * 2 ^ (k - 1))) ∧
    classifyRetryPolicy .requestError k = (false, min 600 (10 * 2 ^ (k - 1))) ∧
    classifyRetryPolicy .jsonDecodeError k = (false, min 1800 (60 * 2 ^ (k - 1))) ∧
    classifyRetryPolicy .otherError k = (false, min 3600 (60 * 2 ^ (k - 1))) := by
  refine ⟨?_, ?_, ?_, ?_, rfl, rfl, rfl, rfl⟩
  · intro hdr hd
    simp [classifyRetryPolicy, hd]
  · intro hdr hd
    simp [classifyRetryPolicy, hd, retrySecondsForAttempt]
  · simp [classifyRetryPolicy, retrySecondsForAttempt]
  · intro s hdr h5 h6
    have h429 : ¬ s = 429 := by omega
    simp [classifyRetryPolicy, if_neg h429, if_pos (⟨h5, h6⟩ : 500 ≤ s ∧ s < 600),
      retrySecondsForAttempt]

/-- Witness for C3 at `k = 1`: a 429 with numeric header 7 waits 7 seconds, a
503 waits 30 seconds. -/
theorem C3_retry_schedule_witness :
    classifyRetryPolicy (.httpStatus 429 (some ['7'])) 1 = (false, 7) ∧
    classifyRetryPolicy (.httpStatus 503 none) 1 = (false, 30) := by
  have h := C3_retry_schedule 1 (by decide)
  constructor
  · have h1 := h.1 ['7'] (by decide)
    rw [h1]
    decide
  · have h2 := h.2.2.2.1 503 none (by decide) (by decide)
    rw [h2]
    decide

/-- C10: the failed-transition UPDATE re-checks the stored `attempt_count`:
whenever the stored `attempt_count + 1 ≥ max_attempts` it produces
`permanent_failed` with null `retry_after` even on the non-permanent branch,
and in every outcome of the failure handler a `permanent_failed` row has null
`retry_after`, regardless of the in-memory attempt count. -/
theorem C10_mark_failed_recheck (row : ClassificationRow)
    (maxAttempts retrySeconds : Nat) (now : Int) (errMsg : List Char)
    (raw : Option Nat) :
    (maxAttempts ≤ row.attempt_count + 1 →
      (markFailed row maxAttempts retrySeconds now errMsg raw).status
          = .permanent_failed ∧
      (markFailed row maxAttempts retrySeconds now errMsg raw).retry_after = none) ∧
    (∀ itemCount e,
      (handleFailure row itemCount e maxAttempts now errMsg raw).status
          = .permanent_failed →
      (handleFailure row itemCount e maxAttempts now errMsg raw).retry_after
          = none) := by
  constructor
  · intro hmax
    constructor
    · simp only [markFailed, if_pos hmax]
    · simp only [markFailed, if_pos hmax]
  · intro itemCount e
    unfold handleFailure
    by_cases hc :
        (classifyRetryPolicy e (itemCount + 1)).1 = true ∨
          itemCount + 1 ≥ maxAttempts
    · rw [if_pos hc]
      intro _
      rfl
    · rw [if_neg hc]
      by_cases hmax : row.attempt_count + 1 ≥ maxAttempts
      · intro _
        simp only [markFailed, if_pos hmax]
      · intro hstat
        exfalso
        simp only [markFailed, if_neg hmax] at hstat
        exact absurd hstat (by simp)

/-- The paging loop computes exactly the count and running maximum of the
observations it processes. -/
theorem ingestLoop_eq_processed (maxPages : Nat) :
    ∀ (pages : List (List RemoteObs)) (page obsCount : Nat) (maxU : Option Int),
      ingestLoop maxPages pages page obsCount maxU
        = (obsCount + (processedObs maxPages pages page).length,
           pageMax maxU (processedObs maxPages pages page)) := by
  intro pages
  induction pages with
  | nil => intro page obsCount maxU; simp [ingestLoop, processedObs, pageMax]
  | cons results rest ih =>
    intro page obsCount maxU
    by_cases hstop : maxPages ≠ 0 ∧ page > maxPages
    · simp [ingestLoop, processedObs, if_pos hstop, pageMax]
    · by_cases hempty : results.isEmpty
      · simp [ingestLoop, processedObs, if_neg hstop, hempty, pageMax]
      · simp only [ingestLoop, processedObs, if_neg hstop, hempty, if_false,
          Bool.false_eq_true]
        rw [ih]
        simp only [Prod.mk.injEq, List.length_append, pageMax, List.foldl_append]
        exact ⟨by omega, trivial⟩

/-- Specification of the running maximum: where it lands relative to the
accumulator and the parsed `updated_at` values. -/
theorem pageMax_spec (l : List RemoteObs) :
    ∀ acc : Option Int,
      (pageMax acc l = none → acc = none ∧ l.filterMap (fun o => o.updated_at) = []) ∧
      (∀ m, pageMax acc l = some m →
        (acc = some m ∨ m ∈ l.filterMap (fun o => o.updated_at)) ∧
        (∀ u ∈ l.filterMap (fun o => o.updated_at), u ≤ m) ∧
        (∀ m0, acc = some m0 → m0 ≤ m)) := by
  induction l with
  | nil =>
    intro acc
    refine ⟨fun h => ⟨h, rfl⟩, fun m hm => ?_⟩
    refine ⟨Or.inl hm, by simp, fun m0 h0 => ?_⟩
    rw [h0] at hm
    exact le_of_eq (Option.some_injective _ hm)
  | cons o l ih =>
    intro acc
    cases ho : o.updated_at with
    | none =>
      have hstep : pageMax acc (o :: l) = pageMax acc l := by
        simp [pageMax, ho]
      have hfm : (o :: l).filterMap (fun x => x.updated_at)
          = l.filterMap (fun x => x.updated_at) := by
        simp [List.filterMap_cons, ho]
      rw [hstep, hfm]
      exact ih acc
    | some u =>
      have hfm : (o :: l).filterMap (fun x => x.updated_at)
          = u :: l.filterMap (fun x => x.updated_at) := by
        simp [List.filterMap_cons, ho]
      cases acc with
      | none =>
        have hstep : pageMax none (o :: l) = pageMax (some u) l := by
          simp [pageMax, ho]
        rw [hstep, hfm]
        constructor
        · intro h
          exact absurd ((ih (some u)).1 h).1 (by simp)
        · intro m hm
          obtain ⟨hmem, hbound, hacc⟩ := (ih (some u)).2 m hm
          refine ⟨Or.inr ?_, ?_, by simp⟩
          · rcases hmem with h | h
            · simp [Option.some_injective _ h.symm]
            · exact List.mem_cons_of_mem _ h
          · intro v hv
            rcases List.mem_cons.mp hv with rfl | hv
            · exact hacc v rfl
            · exact hbound v hv
      | some m0 =>
        by_cases hgt : u > m0
        · have hstep : pageMax (some m0) (o :: l) = pageMax (some u) l := by
            simp [pageMax, ho, hgt]
          rw [hstep, hfm]
          constructor
          · intro h
            exact absurd ((ih (some u)).1 h).1 (by simp)
          · intro m hm
            obtain ⟨hmem, hbound, hacc⟩ := (ih (some u)).2 m hm
            have hum : u ≤ m := hacc u rfl
            refine ⟨Or.inr ?_, ?_, ?_⟩
            · rcases hmem with h | h
              · simp [Option.some_injective _ h.symm]
              · exact List.mem_cons_of_mem _ h
            · intro v hv
              rcases List.mem_cons.mp hv with rfl | hv
              · exact hum
              · exact hbound v hv
            · intro m1 h1
              have hm10 : m1 = m0 := (Option.some.inj h1).symm
              omega
        · have hstep : pageMax (some m0) (o :: l) = pageMax (some m0) l := by
            simp [pageMax, ho, hgt]
          rw [hstep, hfm]
          constructor
          · intro h
            exact absurd ((ih (some m0)).1 h).1 (by simp)
          · intro m hm
            obtain ⟨hmem, hbound, hacc⟩ := (ih (some m0)).2 m hm
            have h0m : m0 ≤ m := hacc m0 rfl
            refine ⟨?_, ?_, fun m1 h1 => by
              have hm10 : m1 = m0 := (Option.some.inj h1).symm
              omega⟩
            · rcases hmem with h | h
              · exact Or.inl h
              · exact Or.inr (List.mem_cons_of_mem _ h)
            · intro v hv
              rcases List.mem_cons.mp hv with rfl | hv
              · omega
              · exact hbound v hv

/-- Every processed observation came from one of the fetched pages. -/
theorem processedObs_subset (maxPages : Nat) :
    ∀ (pages : List (List RemoteObs)) (page : Nat) (o : RemoteObs),
      o ∈ processedObs maxPages pages page → ∃ results ∈ pages, o ∈ results := by
  intro pages
  induction pages with
  | nil => intro page o h; simp [processedObs] at h
  | cons results rest ih =>
    intro page o h
    by_cases hstop : maxPages ≠ 0 ∧ page > maxPages
    · simp [processedObs, if_pos hstop] at h
    · by_cases hempty : results.isEmpty
      · simp [processedObs, if_neg hstop, hempty] at h
      · simp only [processedObs, if_neg hstop, hempty, if_false,
          Bool.false_eq_true, List.mem_append] at h
        rcases h with h | h
        · exact ⟨results, List.mem_cons_self _ _, h⟩
        · obtain ⟨rs, hrs, ho⟩ := ih (page + 1) o h
          exact ⟨rs, List.mem_cons_of_mem _ hrs, ho⟩

/-- C6 (amended): the run's observation count is the number of processed
observations; if no processed observation carried a parseable `updated_at`
(in particular if none was processed), the stored cursor is unchanged;
otherwise the maximum parsed `updated_at` across processed observations is
persisted as the new cursor. -/
theorem C6_cursor_update (stored : Option Int) (pages : List (List RemoteObs))
    (maxPages : Nat) :
    (ingestInat stored pages maxPages).2 = (processedObs maxPages pages 1).length ∧
    (processedUpdatedAts maxPages pages = [] →
      (ingestInat stored pages maxPages).1 = stored) ∧
    (processedUpdatedAts maxPages pages ≠ [] →
      ∃ m, (ingestInat stored pages maxPages).1 = some m ∧
        m ∈ processedUpdatedAts maxPages pages ∧
        ∀ u ∈ processedUpdatedAts maxPages pages, u ≤ m) := by
  have hloop := ingestLoop_eq_processed maxPages pages 1 0 none
  have hspec := pageMax_spec (processedObs maxPages pages 1) none
  refine ⟨by simp [ingestInat, hloop], ?_, ?_⟩
  · intro hempty
    cases hcase : pageMax none (processedObs maxPages pages 1) with
    | none => simp [ingestInat, hloop, hcase]
    | some m =>
      obtain ⟨hmem, -, -⟩ := hspec.2 m hcase
      rcases hmem with h | h
      · exact absurd h (by simp)
      · rw [processedUpdatedAts] at hempty
        rw [hempty] at h
        exact absurd h (List.not_mem_nil m)
  · intro hne
    cases hcase : pageMax none (processedObs maxPages pages 1) with
    | none =>
      exact absurd ((hspec.1 hcase).2) hne
    | some m =>
      obtain ⟨hmem, hbound, -⟩ := hspec.2 m hcase
      refine ⟨m, by simp [ingestInat, hloop, hcase], ?_, hbound⟩
      rcases hmem with h | h
      · exact absurd h (by simp)
      · exact h

/-- Counterexample to C6 as stated: a run that processes one observation
whose `updated_at` is absent or unparseable leaves the stored cursor as it
was; no maximum observed `updated_at` exists, yet an observation was
processed. -/
theorem C6_counterexample :
    (ingestInat (some 5) [[⟨none⟩]] 0).2 = 1 ∧
    (ingestInat (some 5) [[⟨none⟩]] 0).1 = some 5 ∧
    processedUpdatedAts 0 [[⟨none⟩]] = [] ∧
    ¬ ∃ m, (ingestInat (some 5) [[⟨none⟩]] 0).1 = some m ∧
        m ∈ processedUpdatedAts 0 [[⟨none⟩]] := by
  refine ⟨by decide, by decide, by decide, ?_⟩
  rintro ⟨m, -, hm⟩
  rw [show processedUpdatedAts 0 [[⟨none⟩]] = [] by decide] at hm
  exact absurd hm (List.not_mem_nil m)

/-- C5 (amended): when the prior stored cursor parses to `s` and every
fetched observation's parsed `updated_at` respects the `updated_since`
filter (`≥ s - overlap`), the cursor stored after the run is defined and is
at least `s - overlap`. Monotonicity against `s` itself does not hold
(`C5_counterexample`). -/
theorem C5_cursor_lower_bound (s overlapSeconds : Int)
    (pages : List (List RemoteObs)) (maxPages : Nat)
    (hov : 0 ≤ overlapSeconds)
    (hfilter : ∀ results ∈ pages, ∀ o ∈ results, ∀ u : Int,
      o.updated_at = some u → s - overlapSeconds ≤ u) :
    ∃ m, (ingestInat (some s) pages maxPages).1 = some m ∧
      s - overlapSeconds ≤ m := by
  have hloop := ingestLoop_eq_processed maxPages pages 1 0 none
  cases hcase : pageMax none (processedObs maxPages pages 1) with
  | none =>
    refine ⟨s, by simp [ingestInat, hloop, hcase], by omega⟩
  | some m =>
    obtain ⟨hmem, -, -⟩ := (pageMax_spec (processedObs maxPages pages 1) none).2 m hcase
    refine ⟨m, by simp [ingestInat, hloop, hcase], ?_⟩
    rcases hmem with h | h
    · exact absurd h (by simp)
    · obtain ⟨o, ho, hu⟩ := List.mem_filterMap.mp h
      obtain ⟨results, hrs, hors⟩ := processedObs_subset maxPages pages 1 o ho
      exact hfilter results hrs o hors m hu

/-- Witness for C5 (amended) at a concrete input: prior cursor 10, overlap 5,
one observation updated at 7 (admissible under the filter). -/
theorem C5_cursor_lower_bound_witness :
    ∃ m, (ingestInat (some 10) [[⟨some 7⟩]] 0).1 = some m ∧ (5 : Int) ≤ m := by
  have h := C5_cursor_lower_bound 10 5 [[⟨some 7⟩]] 0 (by decide) ?hf
  case hf =>
    intro results hres o ho u hu
    rw [List.mem_singleton] at hres
    subst hres
    rw [List.mem_singleton] at ho
    subst ho
    have : u = 7 := by
      have := hu
      simp at this
      omega
    omega
  obtain ⟨m, hm, hb⟩ := h
  exact ⟨m, hm, by omega⟩

/-- Counterexample to C5 as stated: with a positive overlap window the feed
legitimately returns observations updated inside the overlap; if only such
observations are processed (e.g. the previously newest record was deleted
remotely, or paging was truncated before reaching it), the new cursor is
strictly older than the prior one. Prior cursor 10, overlap 5, sole fetched
observation updated at 7: the run stores 7 < 10. -/
theorem C5_counterexample :
    (ingestInat (some 10) [[⟨some 7⟩]] 0).1 = some 7 ∧
    (ingestInat (some 10) [[⟨some 7⟩]] 0).2 = 1 ∧
    ¬ ((7 : Int) ≥ 10) := by
  decide

/-- One loop step on a netError within the budget. -/
theorem listObsLoop_step_net (maxRetries backoff attempt : Nat)
    (rest : List FetchOutcome) (h : ¬ attempt + 1 > maxRetries) :
    listObsLoop maxRetries backoff (.netError :: rest) attempt
      = ((listObsLoop maxRetries backoff rest (attempt + 1)).1,
         backoff * (attempt + 1) :: (listObsLoop maxRetries backoff rest (attempt + 1)).2) := by
  simp [listObsLoop, if_neg h]

/-- One loop step on a 429 within the budget. -/
theorem listObsLoop_step_429 (maxRetries backoff attempt : Nat)
    (ra : Option (List Char)) (rest : List FetchOutcome)
    (h : ¬ attempt + 1 > maxRetries) :
    listObsLoop maxRetries backoff (.httpError 429 ra :: rest) attempt
      = ((listObsLoop maxRetries backoff rest (attempt + 1)).1,
         (match ra with
          | some hd => if pyIsDigitStr hd then strToNat hd else backoff * (attempt + 1)
          | none => backoff * (attempt + 1)) ::
           (listObsLoop maxRetries backoff rest (attempt + 1)).2) := by
  simp [listObsLoop, if_neg h]

/-- One loop step on a 5xx within the budget. -/
theorem listObsLoop_step_5xx (maxRetries backoff attempt s : Nat)
    (ra : Option (List Char)) (rest : List FetchOutcome)
    (h : ¬ attempt + 1 > maxRetries) (h429 : s ≠ 429) (h5 : 500 ≤ s ∧ s < 600) :
    listObsLoop maxRetries backoff (.httpError s ra :: rest) attempt
      = ((listObsLoop maxRetries backoff rest (attempt + 1)).1,
         backoff * (attempt + 1) :: (listObsLoop maxRetries backoff rest (attempt + 1)).2) := by
  simp [listObsLoop, if_neg h, h429, h5]

/-- A netError raises when the budget is exhausted. -/
theorem listObsLoop_raise_net (maxRetries backoff attempt : Nat)
    (rest : List FetchOutcome) (h : attempt + 1 > maxRetries) :
    listObsLoop maxRetries backoff (.netError :: rest) attempt
      = (.raised .netError, []) := by
  simp [listObsLoop, if_pos h]

/-- An HTTP error raises when the budget is exhausted or the status is
neither 429 nor 5xx. -/
theorem listObsLoop_raise_http (maxRetries backoff attempt s : Nat)
    (ra : Option (List Char)) (rest : List FetchOutcome)
    (cond : attempt + 1 > maxRetries ∨ (s ≠ 429 ∧ ¬ (500 ≤ s ∧ s < 600))) :
    listObsLoop maxRetries backoff (.httpError s ra :: rest) attempt
      = (.raised (.httpError s ra), []) := by
  rcases cond with h | ⟨h1, h2⟩
  · simp [listObsLoop, if_pos h]
  · by_cases hb : attempt + 1 > maxRetries
    · simp [listObsLoop, if_pos hb]
    · simp [listObsLoop, if_neg hb, h1, h2]

/-- A run of transient failures within the retry budget is retried with the
scheduled sleeps and ends with the first success. -/
theorem listObsLoop_ok_of_transient (maxRetries backoff : Nat) :
    ∀ (errs : List FetchOutcome) (attempt d : Nat) (rest : List FetchOutcome),
      (∀ o ∈ errs, transientOutcome o) →
      attempt + errs.length ≤ maxRetries →
      listObsLoop maxRetries backoff (errs ++ .success d :: rest) attempt
        = (.ok d, specRetrySleeps backoff attempt errs) := by
  intro errs
  induction errs with
  | nil =>
    intro attempt d rest _ _
    simp [listObsLoop, specRetrySleeps]
  | cons o errs ih =>
    intro attempt d rest htrans hlen
    have ho : transientOutcome o := htrans o (List.mem_cons_self o errs)
    have hrest : ∀ x ∈ errs, transientOutcome x :=
      fun x hx => htrans x (List.mem_cons_of_mem o hx)
    have hlen2 : attempt + 1 + errs.length ≤ maxRetries := by
      simp only [List.length_cons] at hlen
      omega
    have hnb : ¬ attempt + 1 > maxRetries := by omega
    cases o with
    | success d2 => exact absurd ho (by simp [transientOutcome])
    | netError =>
      rw [List.cons_append,
        listObsLoop_step_net maxRetries backoff attempt _ hnb,
        ih (attempt + 1) d rest hrest hlen2]
      simp [specRetrySleeps, specSleepFor]
    | httpError s ra =>
      have ho2 : s = 429 ∨ (500 ≤ s ∧ s < 600) := ho
      by_cases h429 : s = 429
      · subst h429
        rw [List.cons_append,
          listObsLoop_step_429 maxRetries backoff attempt ra _ hnb,
          ih (attempt + 1) d rest hrest hlen2]
        cases ra with
        | none => simp [specRetrySleeps, specSleepFor]
        | some hd =>
          by_cases hdig : pyIsDigitStr hd <;>
            simp [specRetrySleeps, specSleepFor, hdig]
      · have h5 : 500 ≤ s ∧ s < 600 := by
          rcases ho2 with h | h
          · exact absurd h h429
          · exact h
        rw [List.cons_append,
          listObsLoop_step_5xx maxRetries backoff attempt s ra _ hnb h429 h5,
          ih (attempt + 1) d rest hrest hlen2]
        simp [specRetrySleeps, specSleepFor, h429]

/-- After `maxRetries` transient failures (relative to the attempts already
spent), the next failing outcome is raised. -/
theorem listObsLoop_raise_after (maxRetries backoff : Nat) :
    ∀ (pre : List FetchOutcome) (attempt : Nat) (x : FetchOutcome)
      (rest : List FetchOutcome),
      (∀ o ∈ pre, transientOutcome o) →
      (∀ d, x ≠ .success d) →
      attempt + pre.length = maxRetries →
      listObsLoop maxRetries backoff (pre ++ x :: rest) attempt
        = (.raised x, specRetrySleeps backoff attempt pre) := by
  intro pre
  induction pre with
  | nil =>
    intro attempt x rest _ hx hlen
    have hstop : attempt + 1 > maxRetries := by simp at hlen; omega
    cases x with
    | success d => exact absurd rfl (hx d)
    | netError =>
      rw [List.nil_append, listObsLoop_raise_net maxRetries backoff attempt _ hstop]
      simp [specRetrySleeps]
    | httpError s ra =>
      rw [List.nil_append,
        listObsLoop_raise_http maxRetries backoff attempt s ra _ (Or.inl hstop)]
      simp [specRetrySleeps]
  | cons o pre ih =>
    intro attempt x rest htrans hx hlen
    have ho : transientOutcome o := htrans o (List.mem_cons_self o pre)
    have hrest : ∀ y ∈ pre, transientOutcome y :=
      fun y hy => htrans y (List.mem_cons_of_mem o hy)
    have hlen2 : attempt + 1 + pre.length = maxRetries := by
      simp only [List.length_cons] at hlen
      omega
    have hnb : ¬ attempt + 1 > maxRetries := by omega
    cases o with
    | success d2 => exact absurd ho (by simp [transientOutcome])
    | netError =>
      rw [List.cons_append,
        listObsLoop_step_net maxRetries backoff attempt _ hnb,
        ih (attempt + 1) x rest hrest hx hlen2]
      simp [specRetrySleeps, specSleepFor]
    | httpError s ra =>
      have ho2 : s = 429 ∨ (500 ≤ s ∧ s < 600) := ho
      by_cases h429 : s = 429
      · subst h429
        rw [List.cons_append,
          listObsLoop_step_429 maxRetries backoff attempt ra _ hnb,
          ih (attempt + 1) x rest hrest hx hlen2]
        cases ra with
        | none => simp [specRetrySleeps, specSleepFor]
        | some hd =>
          by_cases hdig : pyIsDigitStr hd <;>
            simp [specRetrySleeps, specSleepFor, hdig]
      · have h5 : 500 ≤ s ∧ s < 600 := by
          rcases ho2 with h | h
          · exact absurd h h429
          · exact h
        rw [List.cons_append,
          listObsLoop_step_5xx maxRetries backoff attempt s ra _ hnb h429 h5,
          ih (attempt + 1) x rest hrest hx hlen2]
        simp [specRetrySleeps, specSleepFor, h429]

/-- C8: the feed client's `list_observations` retries HTTP 429 (sleeping the
numeric `Retry-After` value when present, else `retry_backoff_seconds ×
attempt`), HTTP 5xx and timeout/connection errors with the same linear
backoff; retries are bounded by `max_retries`, after which the error is
raised; an HTTP 4xx other than 429 raises immediately with no retry. -/
theorem C8_feed_retry_policy (maxRetries backoff : Nat) :
    (∀ errs d rest, (∀ o ∈ errs, transientOutcome o) → errs.length ≤ maxRetries →
      listObsLoop maxRetries backoff (errs ++ .success d :: rest) 0
        = (.ok d, specRetrySleeps backoff 0 errs)) ∧
    (∀ pre x rest, (∀ o ∈ pre, transientOutcome o) → (∀ d, x ≠ .success d) →
      pre.length = maxRetries →
      listObsLoop maxRetries backoff (pre ++ x :: rest) 0
        = (.raised x, specRetrySleeps backoff 0 pre)) ∧
    (∀ s ra rest, 400 ≤ s → s < 500 → s ≠ 429 →
      listObsLoop maxRetries backoff (.httpError s ra :: rest) 0
        = (.raised (.httpError s ra), [])) := by
  refine ⟨?_, ?_, ?_⟩
  · intro errs d rest ht hl
    exact listObsLoop_ok_of_transient maxRetries backoff errs 0 d rest ht (by omega)
  · intro pre x rest ht hx hl
    exact listObsLoop_raise_after maxRetries backoff pre 0 x rest ht hx (by omega)
  · intro s ra rest h4 h5 h429
    exact listObsLoop_raise_http maxRetries backoff 0 s ra rest
      (Or.inr ⟨h429, by omega⟩)

/-- `str.replace` leaves a text without any occurrence of the pattern
unchanged. -/
theorem replaceAllGo_eq_self (pat rep : List Char) :
    ∀ (fuel : Nat) (s : List Char), isSubstr pat s = false →
      replaceAllGo pat rep fuel s = s := by
  intro fuel
  induction fuel with
  | zero => intro s h; cases s <;> simp [replaceAllGo]
  | succ fuel ih =>
    intro s h
    cases s with
    | nil => simp [replaceAllGo]
    | cons c rest =>
      have hp : pat.isPrefixOf (c :: rest) = false ∧ isSubstr pat rest = false := by
        simpa [isSubstr, Bool.or_eq_false_iff] using h
      simp [replaceAllGo, hp.1, ih rest hp.2]

/-- `replaceAll` on a pattern-free text is the identity. -/
theorem replaceAll_eq_self (s pat rep : List Char)
    (h : isSubstr pat s = false) : replaceAll s pat rep = s :=
  replaceAllGo_eq_self pat rep s.length s h

/-- Counterexample to C7 as stated: a thumbnail URL that contains `square.`
only without a leading slash (so it lacks the `square.` path segment). The
code's containment test is the bare substring `square.` while its
replacement target is `/square.`, so `large` comes back equal to the
thumbnail — non-null — where the claim requires null. -/
theorem C7_counterexample :
    isSubstr sqDot urlNoSeg = true ∧
    isSubstr slashSquareDot urlNoSeg = false ∧
    (best_photo_urls (some urlNoSeg) none).2.1 = some urlNoSeg := by
  decide

/-- C7 (amended): `large` is non-null exactly when the thumbnail contains the
substring `square.` anywhere, in which case it is the thumbnail with every
occurrence of `/square.` replaced by `/large.` — in particular unchanged
(and still non-null) when `square.` never occurs with a leading slash; the
`original` URL is the feed's `original_url`, or else, when the thumbnail
contains `/photos/` and substituting `/original.jpeg` for `/square.jpg`
changes it, that substitution, or else null. -/
theorem C7_photo_url_derivation (s : List Char) (orig : Option (List Char)) :
    (isSubstr sqDot s = false → (best_photo_urls (some s) orig).2.1 = none) ∧
    (isSubstr sqDot s = true →
      (best_photo_urls (some s) orig).2.1
        = some (replaceAll s slashSquareDot slashLargeDot)) ∧
    (isSubstr sqDot s = true → isSubstr slashSquareDot s = false →
      (best_photo_urls (some s) orig).2.1 = some s) ∧
    (∀ o, orig = some o → (best_photo_urls (some s) orig).2.2 = some o) ∧
    (orig = none → isSubstr slashPhotos s = false →
      (best_photo_urls (some s) orig).2.2 = none) ∧
    (orig = none → isSubstr slashPhotos s = true →
      (best_photo_urls (some s) orig).2.2
        = (if replaceAll s slashSquareJpg slashOriginalJpeg ≠ s then
             some (replaceAll s slashSquareJpg slashOriginalJpeg)
           else none)) ∧
    (best_photo_urls (some s) orig).1 = some s := by
  refine ⟨?_, ?_, ?_, ?_, ?_, ?_, rfl⟩
  · intro h
    simp [best_photo_urls, h]
  · intro h
    simp [best_photo_urls, h]
  · intro h hno
    simp [best_photo_urls, h, replaceAll_eq_self s slashSquareDot slashLargeDot hno]
  · intro o ho
    subst ho
    rfl
  · intro ho h
    subst ho
    simp [best_photo_urls, h]
  · intro ho h
    subst ho
    simp [best_photo_urls, h]

/-- Unpacking the WHERE clause: an eligible photo has a usable URL and
either no classification row for the tuple or a due `failed` row. -/
theorem workEligible_spec (db : Db) (mp m pv : Nat) (now : Int) (p : Photo)
    (h : workEligible db mp m pv now p = true) :
    (coalesceUrl p).isSome = true ∧
    (findClassification db.classifications p.photo_id mp m pv = none ∨
      ∃ c, findClassification db.classifications p.photo_id mp m pv = some c ∧
        c.status = .failed ∧
        (c.retry_after = none ∨ ∃ t, c.retry_after = some t ∧ t ≤ now)) := by
  unfold workEligible at h
  cases hfc : findClassification db.classifications p.photo_id mp m pv with
  | none =>
    rw [hfc] at h
    simp only [Bool.and_eq_true] at h
    exact ⟨h.1.1, Or.inl rfl⟩
  | some c =>
    rw [hfc] at h
    simp only [Bool.and_eq_true, beq_iff_eq] at h
    obtain ⟨⟨hurl, -⟩, hstat, hra⟩ := h
    refine ⟨hurl, Or.inr ⟨c, rfl, hstat, ?_⟩⟩
    cases hcase : c.retry_after with
    | none => exact Or.inl rfl
    | some t =>
      rw [hcase] at hra
      exact Or.inr ⟨t, rfl, of_decide_eq_true hra⟩

/-- Where the coalesced URL comes from: the first non-null variant in the
order large, square, original. -/
theorem coalesceUrl_spec (p : Photo) (u : List Char)
    (h : coalesceUrl p = some u) :
    p.url_large = some u ∨
    (p.url_large = none ∧ p.url_square = some u) ∨
    (p.url_large = none ∧ p.url_square = none ∧ p.url_original = some u) := by
  unfold coalesceUrl at h
  cases hl : p.url_large with
  | some v =>
    rw [hl] at h
    exact Or.inl h
  | none =>
    rw [hl] at h
    cases hs : p.url_square with
    | some v =>
      rw [hs] at h
      exact Or.inr (Or.inl ⟨rfl, h⟩)
    | none =>
      rw [hs] at h
      exact Or.inr (Or.inr ⟨rfl, rfl, h⟩)

/-- Membership in the selection: each selected item is the image of an
eligible photo of the table. -/
theorem selectNextWork_mem (db : Db) (mp m pv limit : Nat) (now : Int)
    (w : WorkItem) (hw : w ∈ selectNextWork db mp m pv limit now) :
    ∃ p ∈ db.photos, workEligible db mp m pv now p = true ∧
      w.photo_id = p.photo_id ∧ w.observation_id = p.observation_id ∧
      w.image_url = (coalesceUrl p).getD [] := by
  unfold selectNextWork at hw
  obtain ⟨p, hpT, hweq⟩ := List.mem_map.mp hw
  have hpS : p ∈ (db.photos.filter (workEligible db mp m pv now)).mergeSort
      (fun a b => decide (a.photo_id ≤ b.photo_id)) :=
    List.take_subset _ _ hpT
  have hpF : p ∈ db.photos.filter (workEligible db mp m pv now) :=
    (List.mergeSort_perm _ _).mem_iff.mp hpS
  obtain ⟨hp, helig⟩ := List.mem_filter.mp hpF
  subst hweq
  exact ⟨p, hp, helig, rfl, rfl, rfl⟩

/-- C2: work selection returns at most `max_items` items in ascending
`photo_id` order; every selected item corresponds to a photo with a usable
URL and either no classification row for the tuple or a due `failed` row
(so `pending`, `succeeded` and `permanent_failed` rows are never selected);
and when the eligible set fits the limit, every eligible photo is
selected. -/
theorem C2_work_selection (db : Db) (mp m pv limit : Nat) (now : Int) :
    (selectNextWork db mp m pv limit now).length ≤ limit ∧
    (selectNextWork db mp m pv limit now).Pairwise
      (fun a b => a.photo_id ≤ b.photo_id) ∧
    (∀ w ∈ selectNextWork db mp m pv limit now, ∃ p ∈ db.photos,
      w.photo_id = p.photo_id ∧
      (coalesceUrl p).isSome = true ∧
      (findClassification db.classifications p.photo_id mp m pv = none ∨
        ∃ c, findClassification db.classifications p.photo_id mp m pv = some c ∧
          c.status = .failed ∧
          (c.retry_after = none ∨ ∃ t, c.retry_after = some t ∧ t ≤ now))) ∧
    (∀ w ∈ selectNextWork db mp m pv limit now, ∀ c,
      findClassification db.classifications w.photo_id mp m pv = some c →
      c.status = .failed) ∧
    ((db.photos.filter (workEligible db mp m pv now)).length ≤ limit →
      ∀ p ∈ db.photos, workEligible db mp m pv now p = true →
        ∃ w ∈ selectNextWork db mp m pv limit now, w.photo_id = p.photo_id) := by
  refine ⟨?_, ?_, ?_, ?_, ?_⟩
  · unfold selectNextWork
    rw [List.length_map, List.length_take]
    exact min_le_left _ _
  · unfold selectNextWork
    rw [List.pairwise_map]
    have hsorted := @List.sorted_mergeSort Photo
      (fun a b => decide (a.photo_id ≤ b.photo_id))
      (fun a b c hab hbc => by
        simp only [decide_eq_true_iff] at *
        omega)
      (fun a b => by
        simp only [Bool.or_eq_true, decide_eq_true_iff]
        omega)
      (db.photos.filter (workEligible db mp m pv now))
    have htake := hsorted.sublist (List.take_sublist limit _)
    exact htake.imp fun hab => by
      simpa only [decide_eq_true_iff] using hab
  · intro w hw
    obtain ⟨p, hp, helig, hpid, -, -⟩ := selectNextWork_mem db mp m pv limit now w hw
    obtain ⟨hurl, hcls⟩ := workEligible_spec db mp m pv now p helig
    exact ⟨p, hp, hpid, hurl, hcls⟩
  · intro w hw c hc
    obtain ⟨p, hp, helig, hpid, -, -⟩ := selectNextWork_mem db mp m pv limit now w hw
    obtain ⟨-, hcls⟩ := workEligible_spec db mp m pv now p helig
    rw [hpid] at hc
    rcases hcls with hnone | ⟨c2, hc2, hstat, -⟩
    · rw [hnone] at hc
      exact absurd hc (by simp)
    · rw [hc2] at hc
      rw [← Option.some.inj hc]
      exact hstat
  · intro hlen p hp helig
    have hpF : p ∈ db.photos.filter (workEligible db mp m pv now) :=
      List.mem_filter.mpr ⟨hp, helig⟩
    have hperm := List.mergeSort_perm
      (db.photos.filter (workEligible db mp m pv now))
      (fun a b => decide (a.photo_id ≤ b.photo_id))
    have hlenS : ((db.photos.filter (workEligible db mp m pv now)).mergeSort
        (fun a b => decide (a.photo_id ≤ b.photo_id))).length ≤ limit := by
      rw [hperm.length_eq]
      exact hlen
    have hpS := hperm.mem_iff.mpr hpF
    unfold selectNextWork
    rw [List.take_of_length_le hlenS]
    exact ⟨_, List.mem_map_of_mem _ hpS, rfl⟩

/-- C9: every selected work item's `image_url` is the first non-null URL
variant of its photo in the order large, square, original, and the pending
reservation stores exactly that `image_url` (it is likewise what the worker
closure passes to `classify_image`). -/
theorem C9_image_url_preference (db : Db) (mp m pv limit : Nat) (now : Int) :
    (∀ w ∈ selectNextWork db mp m pv limit now, ∃ p ∈ db.photos,
      w.photo_id = p.photo_id ∧
      (p.url_large = some w.image_url ∨
       (p.url_large = none ∧ p.url_square = some w.image_url) ∨
       (p.url_large = none ∧ p.url_square = none ∧
        p.url_original = some w.image_url))) ∧
    (∀ (item : WorkItem) (mp2 m2 pv2 pHash : Nat) (notes : List Char)
       (tr : Bool) (old : Option ClassificationRow),
      (upsertPending item mp2 m2 pv2 pHash notes tr old).input_image_url
        = some item.image_url) := by
  constructor
  · intro w hw
    obtain ⟨p, hp, helig, hpid, -, hurl⟩ :=
      selectNextWork_mem db mp m pv limit now w hw
    obtain ⟨hsome, -⟩ := workEligible_spec db mp m pv now p helig
    obtain ⟨u, hu⟩ := Option.isSome_iff_exists.mp hsome
    have hwu : w.image_url = u := by rw [hurl, hu]; rfl
    subst hwu
    exact ⟨p, hp, hpid, coalesceUrl_spec p _ hu⟩
  · intro item mp2 m2 pv2 pHash notes tr old
    cases old <;> rfl

/- ### Scanner-neutrality lemmas for the JSON extractor -/

theorem neutralRun_nil : NeutralRun [] := by
  intro rest acc d _
  simp

theorem neutralRun_append {l1 l2 : List Char}
    (h1 : NeutralRun l1) (h2 : NeutralRun l2) : NeutralRun (l1 ++ l2) := by
  intro rest acc d hd
  rw [List.append_assoc, h1 (l2 ++ rest) acc d hd, h2 rest (acc ++ l1) d hd,
    List.append_assoc]

theorem neutralRun_char {c : Char} (h1 : c ≠ '\"') (h2 : c ≠ '{')
    (h3 : c ≠ '}') : NeutralRun [c] := by
  intro rest acc d hd
  show extractCore (c :: rest) d false false acc = _
  simp [extractCore, h1, h2, h3]

theorem neutralRun_braces {l : List Char} (h : NeutralRun l) :
    NeutralRun ('{' :: l ++ ['}']) := by
  intro rest acc d hd
  have hne : ¬ (d = 0) := by omega
  rw [show ('{' :: l ++ ['}']) ++ rest = '{' :: (l ++ ('}' :: rest)) by simp]
  rw [show extractCore ('{' :: (l ++ ('}' :: rest))) d false false acc
      = extractCore (l ++ ('}' :: rest)) (d + 1) false false (acc ++ ['{']) by
    simp [extractCore]]
  rw [h ('}' :: rest) (acc ++ ['{']) (d + 1) (by omega)]
  rw [show extractCore ('}' :: rest) (d + 1) false false (acc ++ ['{'] ++ l)
      = extractCore rest d false false (acc ++ ['{'] ++ l ++ ['}']) by
    simp [extractCore, hne]]
  simp [List.append_assoc]

theorem stringRun_append {l1 l2 : List Char}
    (h1 : StringRun l1) (h2 : StringRun l2) : StringRun (l1 ++ l2) := by
  intro rest acc d
  rw [List.append_assoc, h1 (l2 ++ rest) acc d, h2 rest (acc ++ l1) d,
    List.append_assoc]

theorem stringRun_plain {c : Char} (h1 : c ≠ '\"') (h2 : c ≠ '\\') :
    StringRun [c] := by
  intro rest acc d
  show extractCore (c :: rest) d true false acc = _
  simp [extractCore, h1, h2]

theorem stringRun_pair (c : Char) : StringRun ['\\', c] := by
  intro rest acc d
  show extractCore ('\\' :: c :: rest) d true false acc = _
  rw [show extractCore ('\\' :: c :: rest) d true false acc
      = extractCore (c :: rest) d true true (acc ++ ['\\']) by
    simp [extractCore]]
  rw [show extractCore (c :: rest) d true true (acc ++ ['\\'])
      = extractCore rest d true false (acc ++ ['\\'] ++ [c]) by
    simp [extractCore]]
  simp

theorem escChar_stringRun (c : Char) : StringRun (escChar c) := by
  unfold escChar
  by_cases h1 : c = '\"'
  · simp [h1]; exact stringRun_pair _
  · by_cases h2 : c = '\\'
    · simp [h1, h2]; exact stringRun_pair _
    · by_cases h3 : c = '\n'
      · simp [h1, h2, h3]; exact stringRun_pair _
      · by_cases h4 : c = '\r'
        · simp [h1, h2, h3, h4]; exact stringRun_pair _
        · by_cases h5 : c = '\t'
          · simp [h1, h2, h3, h4, h5]; exact stringRun_pair _
          · simp [h1, h2, h3, h4, h5]; exact stringRun_plain h1 h2

theorem escChar_no_nl (c : Char) : '\n' ∉ escChar c := by
  unfold escChar
  by_cases h1 : c = '\"'
  · simp [h1]
  · by_cases h2 : c = '\\'
    · simp [h1, h2]
    · by_cases h3 : c = '\n'
      · simp [h1, h2, h3]
      · by_cases h4 : c = '\r'
        · simp [h1, h2, h3, h4]
        · by_cases h5 : c = '\t'
          · simp [h1, h2, h3, h4, h5]
          · simp only [h1, h2, h3, h4, h5, if_false, List.mem_singleton]
            exact fun he => h3 he.symm

theorem escStr_stringRun (s : List Char) : StringRun (escStr s) := by
  induction s with
  | nil => intro rest acc d; simp [escStr]
  | cons c rest ih =>
    show StringRun (escChar c ++ escStr rest)
    exact stringRun_append (escChar_stringRun c) ih

theorem escStr_no_nl (s : List Char) : '\n' ∉ escStr s := by
  induction s with
  | nil => simp [escStr]
  | cons c rest ih =>
    show '\n' ∉ escChar c ++ escStr rest
    simp only [List.mem_append]
    rintro (h | h)
    · exact escChar_no_nl c h
    · exact ih h

theorem neutralRun_strLit (s : List Char) :
    NeutralRun ('\"' :: escStr s ++ ['\"']) := by
  intro rest acc d hd
  rw [show ('\"' :: escStr s ++ ['\"']) ++ rest
      = '\"' :: (escStr s ++ ('\"' :: rest)) by simp]
  rw [show extractCore ('\"' :: (escStr s ++ ('\"' :: rest))) d false false acc
      = extractCore (escStr s ++ ('\"' :: rest)) d true false (acc ++ ['\"']) by
    simp [extractCore]]
  rw [escStr_stringRun s ('\"' :: rest) (acc ++ ['\"']) d]
  rw [show extractCore ('\"' :: rest) d true false (acc ++ ['\"'] ++ escStr s)
      = extractCore rest d false false (acc ++ ['\"'] ++ escStr s ++ ['\"']) by
    simp [extractCore]]
  simp [List.append_assoc]

theorem goodRun_nil : GoodRun [] := ⟨neutralRun_nil, by simp⟩

theorem goodRun_append {l1 l2 : List Char}
    (h1 : GoodRun l1) (h2 : GoodRun l2) : GoodRun (l1 ++ l2) := by
  refine ⟨neutralRun_append h1.1 h2.1, ?_⟩
  simp only [List.mem_append]
  rintro (h | h)
  · exact h1.2 h
  · exact h2.2 h

theorem goodRun_char {c : Char} (h : CharOK c) : GoodRun [c] := by
  refine ⟨neutralRun_char h.1 h.2.1 h.2.2.1, ?_⟩
  simp only [List.mem_singleton]
  intro he
  exact h.2.2.2 he.symm

theorem goodRun_cons {c : Char} {l : List Char} (hc : CharOK c)
    (hl : GoodRun l) : GoodRun (c :: l) :=
  goodRun_append (goodRun_char hc) hl

theorem goodRun_braces {l : List Char} (h : GoodRun l) :
    GoodRun ('{' :: l ++ ['}']) := by
  refine ⟨neutralRun_braces h.1, ?_⟩
  simp only [List.cons_append, List.mem_cons, List.mem_append,
    List.mem_singleton]
  rintro (he | he | he)
  · exact absurd he (by decide)
  · exact h.2 he
  · exact absurd he (by decide)

theorem goodRun_strLit (s : List Char) :
    GoodRun ('\"' :: escStr s ++ ['\"']) := by
  refine ⟨neutralRun_strLit s, ?_⟩
  simp only [List.cons_append, List.mem_cons, List.mem_append,
    List.mem_singleton]
  rintro (he | he | he)
  · exact absurd he (by decide)
  · exact escStr_no_nl s he
  · exact absurd he (by decide)

theorem goodRun_of_all {l : List Char} (h : ∀ c ∈ l, CharOK c) : GoodRun l := by
  induction l with
  | nil => exact goodRun_nil
  | cons c rest ih =>
    exact goodRun_cons (h c (List.mem_cons_self c rest))
      (ih fun x hx => h x (List.mem_cons_of_mem c hx))

theorem digitChar_ok (k : Nat) : CharOK (digitChar k) := by
  unfold digitChar
  split <;> decide

theorem natCharsAux_ok (fuel : Nat) :
    ∀ n : Nat, ∀ c ∈ natCharsAux fuel n, CharOK c := by
  induction fuel with
  | zero =>
    intro n c hc
    simp only [natCharsAux, List.mem_singleton] at hc
    exact hc ▸ digitChar_ok n
  | succ fuel ih =>
    intro n c hc
    simp only [natCharsAux] at hc
    by_cases hn : n < 10
    · rw [if_pos hn] at hc
      simp only [List.mem_singleton] at hc
      exact hc ▸ digitChar_ok n
    · rw [if_neg hn] at hc
      simp only [List.mem_append, List.mem_singleton] at hc
      rcases hc with hc | hc
      · exact ih _ c hc
      · exact hc ▸ digitChar_ok _

theorem intChars_ok (n : Int) : ∀ c ∈ intChars n, CharOK c := by
  intro c hc
  unfold intChars at hc
  by_cases hn : n < 0
  · rw [if_pos hn] at hc
    simp only [List.mem_cons] at hc
    rcases hc with hc | hc
    · exact hc ▸ (by decide)
    · exact natCharsAux_ok _ _ c hc
  · rw [if_neg hn] at hc
    exact natCharsAux_ok _ _ c hc

mutual

theorem serialize_good : ∀ v : Json, GoodRun (serialize v)
  | .null => goodRun_of_all (by decide)
  | .bool b => by
    cases b <;> exact goodRun_of_all (by decide)
  | .num n => goodRun_of_all (intChars_ok n)
  | .str s => goodRun_strLit s
  | .arr elems => by
    have hl := serializeList_good elems
    show GoodRun ('[' :: serializeList elems ++ [']'])
    rw [show '[' :: serializeList elems ++ [']']
        = ['['] ++ (serializeList elems ++ [']']) by simp]
    exact goodRun_append (goodRun_char (by decide))
      (goodRun_append hl (goodRun_char (by decide)))
  | .obj fields => by
    have hf := serializeFields_good fields
    exact goodRun_braces hf

theorem serializeList_good : ∀ l : List Json, GoodRun (serializeList l)
  | [] => goodRun_nil
  | [v] => serialize_good v
  | v :: v2 :: rest => by
    have h1 := serialize_good v
    have h2 := serializeList_good (v2 :: rest)
    show GoodRun (serialize v ++ ',' :: serializeList (v2 :: rest))
    exact goodRun_append h1 (goodRun_cons (by decide) h2)

theorem serializeFields_good :
    ∀ fs : List (List Char × Json), GoodRun (serializeFields fs)
  | [] => goodRun_nil
  | [(k, v)] => by
    have h1 := serialize_good v
    rw [show serializeFields [(k, v)]
        = ('\"' :: escStr k ++ ['\"']) ++ (':' :: serialize v) by
      simp [serializeFields]]
    exact goodRun_append (goodRun_strLit k) (goodRun_cons (by decide) h1)
  | (k, v) :: f2 :: rest => by
    have h1 := serialize_good v
    have h2 := serializeFields_good (f2 :: rest)
    rw [show serializeFields ((k, v) :: f2 :: rest)
        = ('\"' :: escStr k ++ ['\"']) ++ (':'
          :: (serialize v ++ ',' :: serializeFields (f2 :: rest))) by
      simp [serializeFields]]
    refine goodRun_append (goodRun_strLit k) (goodRun_cons (by decide) ?_)
    exact goodRun_append h1 (goodRun_cons (by decide) h2)

end

/-- Scanning a serialized object from depth 0 returns exactly that object
text, whatever follows it. -/
theorem extractCore_top {l : List Char} (h : NeutralRun l)
    (rest acc : List Char) :
    extractCore (('{' :: l ++ ['}']) ++ rest) 0 false false acc
      = some (acc ++ ('{' :: l ++ ['}'])) := by
  rw [show ('{' :: l ++ ['}']) ++ rest = '{' :: (l ++ ('}' :: rest)) by simp]
  rw [show extractCore ('{' :: (l ++ ('}' :: rest))) 0 false false acc
      = extractCore (l ++ ('}' :: rest)) (0 + 1) false false (acc ++ ['{']) by
    simp [extractCore]]
  rw [h ('}' :: rest) (acc ++ ['{']) (0 + 1) (by omega)]
  rw [show extractCore ('}' :: rest) (0 + 1) false false (acc ++ ['{'] ++ l)
      = some (acc ++ ['{'] ++ l ++ ['}']) by
    simp [extractCore]]
  simp

/-- The same, phrased for a serialized JSON object. -/
theorem extractCore_serialize_obj (fs : List (List Char × Json))
    (rest : List Char) :
    extractCore (serialize (Json.obj fs) ++ rest) 0 false false []
      = some (serialize (Json.obj fs)) := by
  have h := (serializeFields_good fs).1
  rw [show serialize (Json.obj fs) = '{' :: serializeFields fs ++ ['}'] from rfl]
  rw [extractCore_top h rest []]
  simp

/- ### Python string-primitive lemmas -/

theorem pyLstrip_append_head (A T : List Char) (c : Char)
    (hc : T.head? = some c) (hcs : pyIsSpace c = false) :
    pyLstrip (A ++ T) = pyLstrip A ++ T := by
  obtain ⟨t, rfl⟩ : ∃ t, T = c :: t := by
    cases T with
    | nil => simp at hc
    | cons c0 t =>
      simp only [List.head?_cons, Option.some.injEq] at hc
      exact ⟨t, by rw [hc]⟩
  unfold pyLstrip
  rw [List.dropWhile_append]
  by_cases he : (A.dropWhile pyIsSpace).isEmpty
  · rw [if_pos he, List.dropWhile_cons, if_neg (by simp [hcs]),
      List.isEmpty_iff.mp he]
    simp
  · rw [if_neg he]

theorem pyRstrip_append_last (X B : List Char) (c : Char)
    (hc : X.getLast? = some c) (hcs : pyIsSpace c = false) :
    pyRstrip (X ++ B) = X ++ pyRstrip B := by
  have hh : X.reverse.head? = some c := by rw [List.head?_reverse]; exact hc
  obtain ⟨t, ht⟩ : ∃ t, X.reverse = c :: t := by
    cases hx : X.reverse with
    | nil => rw [hx] at hh; simp at hh
    | cons c0 t =>
      rw [hx] at hh
      simp only [List.head?_cons, Option.some.injEq] at hh
      exact ⟨t, by rw [hh]⟩
  unfold pyRstrip
  rw [List.reverse_append, List.dropWhile_append]
  by_cases he : (B.reverse.dropWhile pyIsSpace).isEmpty
  · rw [if_pos he, ht, List.dropWhile_cons, if_neg (by simp [hcs]), ← ht,
      List.reverse_reverse, List.isEmpty_iff.mp he]
    simp
  · rw [if_neg he, List.reverse_append, List.reverse_reverse]

theorem dropWhile_dropWhile (p : Char → Bool) (l : List Char) :
    (l.dropWhile p).dropWhile p = l.dropWhile p := by
  induction l with
  | nil => rfl
  | cons c t ih =>
    rw [List.dropWhile_cons]
    by_cases hc : p c
    · rw [if_pos hc]; exact ih
    · rw [if_neg hc, List.dropWhile_cons, if_neg hc]

theorem pyRstrip_idem (l : List Char) : pyRstrip (pyRstrip l) = pyRstrip l := by
  unfold pyRstrip
  rw [List.reverse_reverse, dropWhile_dropWhile]

theorem mem_of_getLast? {l : List Char} {c : Char}
    (h : l.getLast? = some c) : c ∈ l := by
  induction l with
  | nil => simp at h
  | cons a t ih =>
    cases t with
    | nil =>
      simp only [List.getLast?_singleton, Option.some.injEq] at h
      simp [h]
    | cons b t2 =>
      rw [List.getLast?_cons_cons] at h
      exact List.mem_cons_of_mem a (ih h)

theorem getLast?_dropWhile (p : Char → Bool) (l : List Char)
    (h : l.dropWhile p ≠ []) :
    (l.dropWhile p).getLast? = l.getLast? := by
  obtain ⟨t, ht⟩ := @List.dropWhile_suffix Char l p
  conv_rhs => rw [← ht]
  rw [List.getLast?_append]
  cases hd : (l.dropWhile p).getLast? with
  | none =>
    rw [List.getLast?_eq_none_iff] at hd
    exact absurd hd h
  | some c => rfl

theorem pyStrip_protect (A S B : List Char)
    (h1 : S.head? = some '{') (h2 : S.getLast? = some '}') :
    pyStrip (A ++ S ++ B) = pyLstrip A ++ (S ++ pyRstrip B) := by
  unfold pyStrip
  have hX : (A ++ S).getLast? = some '}' := by
    rw [List.getLast?_append, h2]; rfl
  rw [pyRstrip_append_last (A ++ S) B '}' hX (by decide), List.append_assoc]
  have hh : (S ++ pyRstrip B).head? = some '{' := by
    rw [List.head?_append, h1]; rfl
  rw [pyLstrip_append_head A (S ++ pyRstrip B) '{' hh (by decide)]

theorem pyRstrip_nl_bt (B0 : List Char) :
    pyRstrip ('\n' :: '`' :: '`' :: '`' :: B0)
      = '\n' :: '`' :: '`' :: '`' :: pyRstrip B0 := by
  have h := pyRstrip_append_last ['\n', '`', '`', '`'] B0 '`' (by rfl) (by decide)
  simpa using h

/- ### `split` / `join` lemmas -/

theorem pySplitNl_ne_nil (s : List Char) : pySplitNl s ≠ [] := by
  cases s with
  | nil => simp [pySplitNl]
  | cons c rest =>
    simp only [pySplitNl]
    by_cases h : c = '\n'
    · simp [h]
    · rw [if_neg h]
      cases pySplitNl rest <;> simp

theorem pyJoinNl_pySplitNl (s : List Char) : pyJoinNl (pySplitNl s) = s := by
  induction s with
  | nil => rfl
  | cons c rest ih =>
    simp only [pySplitNl]
    by_cases h : c = '\n'
    · rw [if_pos h]
      cases hsp : pySplitNl rest with
      | nil => exact absurd hsp (pySplitNl_ne_nil rest)
      | cons p t =>
        rw [hsp] at ih
        show pyJoinNl ([] :: p :: t) = c :: rest
        rw [show pyJoinNl ([] :: p :: t) = [] ++ '\n' :: pyJoinNl (p :: t) from rfl]
        rw [ih, h]
        rfl
    · rw [if_neg h]
      cases hsp : pySplitNl rest with
      | nil => exact absurd hsp (pySplitNl_ne_nil rest)
      | cons p t =>
        rw [hsp] at ih
        cases t with
        | nil =>
          show pyJoinNl [c :: p] = c :: rest
          show c :: p = c :: rest
          rw [show p = rest from ih]
        | cons p2 t2 =>
          show pyJoinNl ((c :: p) :: p2 :: t2) = c :: rest
          rw [show pyJoinNl ((c :: p) :: p2 :: t2)
              = (c :: p) ++ '\n' :: pyJoinNl (p2 :: t2) from rfl]
          rw [← ih]
          rfl

theorem pySplitNl_first (a0 rest : List Char) (h : '\n' ∉ a0) :
    pySplitNl (a0 ++ '\n' :: rest) = a0 :: pySplitNl rest := by
  induction a0 with
  | nil => simp [pySplitNl]
  | cons c t ih =>
    have hc : c ≠ '\n' := fun he => h (he ▸ List.mem_cons_self c t)
    have ht : '\n' ∉ t := fun hm => h (List.mem_cons_of_mem c hm)
    rw [List.cons_append]
    simp only [pySplitNl, if_neg hc]
    rw [ih ht]

theorem split_first_mem {x : Char} :
    ∀ l : List Char, x ∈ l → ∃ a b, l = a ++ x :: b ∧ x ∉ a := by
  intro l
  induction l with
  | nil => simp
  | cons c t ih =>
    intro h
    by_cases hc : c = x
    · exact ⟨[], t, by rw [hc]; rfl, by simp⟩
    · have hx : x ∈ t := by
        rcases List.mem_cons.mp h with h | h
        · exact absurd h.symm hc
        · exact h
      obtain ⟨a, b, hab, hna⟩ := ih hx
      refine ⟨c :: a, b, by rw [hab]; rfl, fun hm => ?_⟩
      rcases List.mem_cons.mp hm with h | h
      · exact hc h.symm
      · exact hna h

theorem bt_isPrefixOf_first (a0 : List Char) (r : List Char)
    (h : (['`', '`', '`'] : List Char).isPrefixOf (a0 ++ '\n' :: r) = true)
    (hn : '\n' ∉ a0) :
    (['`', '`', '`'] : List Char).isPrefixOf a0 = true := by
  match a0 with
  | [] => simp [List.isPrefixOf] at h
  | [c1] =>
    simp only [List.cons_append, List.nil_append, List.isPrefixOf,
      Bool.and_eq_true, beq_iff_eq] at h
    exact absurd h.2.1 (by decide)
  | [c1, c2] =>
    simp only [List.cons_append, List.nil_append, List.isPrefixOf,
      Bool.and_eq_true, beq_iff_eq] at h
    exact absurd h.2.2.1 (by decide)
  | c1 :: c2 :: c3 :: t =>
    simp only [List.cons_append, List.isPrefixOf, Bool.and_eq_true,
      beq_iff_eq] at h
    simp only [List.isPrefixOf, Bool.and_eq_true, beq_iff_eq]
    exact ⟨h.1, h.2.1, h.2.2.1, trivial⟩

theorem pyLstrip_subset (l : List Char) : ∀ x ∈ pyLstrip l, x ∈ l :=
  fun _ hx => (List.dropWhile_suffix pyIsSpace).sublist.subset hx

theorem pyLstrip_getLast? (l : List Char) (h : pyLstrip l ≠ []) :
    (pyLstrip l).getLast? = l.getLast? :=
  getLast?_dropWhile pyIsSpace l h

/-- When the text starts with a fenced first line followed by a newline,
the first-line drop removes exactly that line. -/
theorem stripCodeFencesStep2_eq (a0 T : List Char) (hna0 : '\n' ∉ a0)
    (hbt : (['`', '`', '`'] : List Char).isPrefixOf a0 = true) :
    stripCodeFencesStep2 (a0 ++ '\n' :: T) = T := by
  unfold stripCodeFencesStep2
  rw [pySplitNl_first a0 T hna0]
  have hlen : 2 ≤ (a0 :: pySplitNl T).length := by
    have hne := pySplitNl_ne_nil T
    have : 0 < (pySplitNl T).length := List.length_pos.mpr hne
    simp only [List.length_cons]
    omega
  rw [if_pos ⟨hlen, by simpa using hbt⟩]
  exact pyJoinNl_pySplitNl T

/-- The trailing-fence drop never cuts into a `}`-terminated prefix when the
tail keeps at least three characters after rstripping. -/
theorem stripCodeFencesStep3_protect (X D : List Char)
    (hX : X.getLast? = some '}') (hD : pyRstrip D = D) (hDlen : 3 ≤ D.length) :
    ∃ Z, stripCodeFencesStep3 (X ++ D) = X ++ Z := by
  unfold stripCodeFencesStep3
  rw [pyRstrip_append_last X D '}' hX (by decide), hD]
  by_cases hsuf : (['`', '`', '`'] : List Char).isSuffixOf (X ++ D) = true
  · rw [if_pos hsuf]
    have hlen : (X ++ D).length - 3 = X.length + (D.length - 3) := by
      simp only [List.length_append]
      omega
    rw [hlen, List.take_append]
    rw [pyRstrip_append_last X _ '}' hX (by decide)]
    exact ⟨_, rfl⟩
  · rw [if_neg hsuf]
    exact ⟨D, rfl⟩

/-- The heart of the C4 argument: on an input of the fenced shape whose
leading part is brace-free and ends with a newline, `_strip_code_fences`
returns the object text `S` intact, surrounded by a brace-free prefix and
some suffix. -/
theorem stripCodeFences_protects (A S B0 : List Char)
    (hA : '{' ∉ A) (hAnl : A.getLast? = some '\n')
    (hS1 : S.head? = some '{') (hS2 : S.getLast? = some '}') :
    ∃ A2 B2, stripCodeFences (A ++ S ++ ('\n' :: '`' :: '`' :: '`' :: B0))
      = A2 ++ (S ++ B2) ∧ '{' ∉ A2 ∧ (∀ x ∈ A2, x ∈ A) := by
  obtain ⟨S', hS'⟩ : ∃ S', S = '{' :: S' := by
    cases S with
    | nil => simp at hS1
    | cons c t =>
      simp only [List.head?_cons, Option.some.injEq] at hS1
      exact ⟨t, by rw [hS1]⟩
  have hRB : pyRstrip ('\n' :: '`' :: '`' :: '`' :: B0)
      = '\n' :: '`' :: '`' :: '`' :: pyRstrip B0 := pyRstrip_nl_bt B0
  have hstr : pyStrip (A ++ S ++ ('\n' :: '`' :: '`' :: '`' :: B0))
      = pyLstrip A ++ (S ++ ('\n' :: '`' :: '`' :: '`' :: pyRstrip B0)) := by
    rw [pyStrip_protect A S _ hS1 hS2, hRB]
  simp only [stripCodeFences]
  rw [hstr]
  by_cases hpre : (['`', '`', '`'] : List Char).isPrefixOf
      (pyLstrip A ++ (S ++ ('\n' :: '`' :: '`' :: '`' :: pyRstrip B0))) = true
  · rw [if_pos hpre]
    have hA1ne : pyLstrip A ≠ [] := by
      intro h0
      rw [h0, List.nil_append, hS', List.cons_append] at hpre
      simp [List.isPrefixOf] at hpre
    have hA1last : (pyLstrip A).getLast? = some '\n' := by
      rw [pyLstrip_getLast? A hA1ne]
      exact hAnl
    obtain ⟨a0, a1, hA1eq, hna0⟩ :=
      split_first_mem (pyLstrip A) (mem_of_getLast? hA1last)
    have hshape : pyLstrip A ++ (S ++ ('\n' :: '`' :: '`' :: '`' :: pyRstrip B0))
        = a0 ++ '\n' :: (a1 ++ (S ++ ('\n' :: '`' :: '`' :: '`' :: pyRstrip B0))) := by
      rw [hA1eq]
      simp
    rw [hshape] at hpre ⊢
    have hbt0 := bt_isPrefixOf_first a0 _ hpre hna0
    rw [stripCodeFencesStep2_eq a0 _ hna0 hbt0]
    have hXlast : (a1 ++ S).getLast? = some '}' := by
      rw [List.getLast?_append, hS2]
      rfl
    have hDr : pyRstrip ('\n' :: '`' :: '`' :: '`' :: pyRstrip B0)
        = '\n' :: '`' :: '`' :: '`' :: pyRstrip B0 := by
      rw [pyRstrip_nl_bt (pyRstrip B0), pyRstrip_idem]
    have hDlen : 3 ≤ ('\n' :: '`' :: '`' :: '`' :: pyRstrip B0).length := by
      simp only [List.length_cons]
      omega
    obtain ⟨Z, hZ⟩ := stripCodeFencesStep3_protect (a1 ++ S) _ hXlast hDr hDlen
    rw [show a1 ++ (S ++ ('\n' :: '`' :: '`' :: '`' :: pyRstrip B0))
        = (a1 ++ S) ++ ('\n' :: '`' :: '`' :: '`' :: pyRstrip B0) by simp, hZ]
    rw [show (a1 ++ S) ++ Z = a1 ++ S ++ Z from rfl,
      pyStrip_protect a1 S Z hS1 hS2]
    refine ⟨pyLstrip a1, pyRstrip Z, rfl, ?_, ?_⟩
    · intro hmem
      have h1 : '{' ∈ a1 := pyLstrip_subset a1 _ hmem
      have h2 : '{' ∈ pyLstrip A := by
        rw [hA1eq]
        simp [h1]
      exact hA (pyLstrip_subset A _ h2)
    · intro x hx
      have h1 : x ∈ a1 := pyLstrip_subset a1 _ hx
      have h2 : x ∈ pyLstrip A := by
        rw [hA1eq]
        simp [h1]
      exact pyLstrip_subset A _ h2
  · rw [if_neg hpre]
    rw [show pyLstrip A ++ (S ++ ('\n' :: '`' :: '`' :: '`' :: pyRstrip B0))
        = pyLstrip A ++ S ++ ('\n' :: '`' :: '`' :: '`' :: pyRstrip B0) by simp,
      pyStrip_protect (pyLstrip A) S _ hS1 hS2]
    refine ⟨pyLstrip (pyLstrip A), _, rfl, ?_, ?_⟩
    · intro hmem
      exact hA (pyLstrip_subset A _ (pyLstrip_subset (pyLstrip A) _ hmem))
    · intro x hx
      exact pyLstrip_subset A _ (pyLstrip_subset (pyLstrip A) _ hx)

/-- On a fenced input with brace-free, newline-terminated leading part, the
extractor recovers exactly the serialized object. -/
theorem extractFirstJsonObject_fenced (A B0 : List Char)
    (fs : List (List Char × Json))
    (hA : '{' ∉ A) (hAnl : A.getLast? = some '\n') :
    extractFirstJsonObject
        (A ++ serialize (Json.obj fs) ++ ('\n' :: '`' :: '`' :: '`' :: B0))
      = some (serialize (Json.obj fs)) := by
  have hS1 : (serialize (Json.obj fs)).head? = some '{' := by
    rw [show serialize (Json.obj fs) = '{' :: serializeFields fs ++ ['}'] from rfl]
    rfl
  have hS2 : (serialize (Json.obj fs)).getLast? = some '}' := by
    rw [show serialize (Json.obj fs) = '{' :: serializeFields fs ++ ['}'] from rfl]
    rw [show ('{' :: serializeFields fs ++ ['}'])
        = ('{' :: serializeFields fs) ++ ['}'] from rfl]
    exact List.getLast?_concat _
  obtain ⟨A2, B2, heq, hA2, -⟩ :=
    stripCodeFences_protects A (serialize (Json.obj fs)) B0 hA hAnl hS1 hS2
  simp only [extractFirstJsonObject]
  rw [heq]
  have hallp : (A2.dropWhile fun c => decide (c ≠ '{')) = [] := by
    rw [List.dropWhile_eq_nil_iff]
    intro x hx
    simp only [decide_eq_true_iff]
    intro he
    exact hA2 (he ▸ hx)
  have hdrop : ((A2 ++ (serialize (Json.obj fs) ++ B2)).dropWhile
      fun c => decide (c ≠ '{')) = serialize (Json.obj fs) ++ B2 := by
    rw [List.dropWhile_append, hallp]
    simp only [List.isEmpty_nil, if_true]
    rw [show serialize (Json.obj fs) ++ B2
        = '{' :: (serializeFields fs ++ ['}'] ++ B2) by
      rw [show serialize (Json.obj fs) = '{' :: serializeFields fs ++ ['}'] from rfl]
      simp]
    rw [List.dropWhile_cons, if_neg (by simp)]
  rw [hdrop]
  have hne : ¬ ((serialize (Json.obj fs) ++ B2).isEmpty = true) := by
    rw [show serialize (Json.obj fs) = '{' :: serializeFields fs ++ ['}'] from rfl]
    simp
  rw [if_neg hne]
  exact extractCore_serialize_obj fs B2

/-- C4 (amended): for any input of the fenced shape whose prose before the
fenced block contains no `{` character (`VALID` being the serialization of a
JSON object), the recovery extractor returns exactly the `{VALID}` substring,
and — whenever the direct decode does not itself produce an object and
`json.loads` decodes the recovered text to its object — the tolerant parse
yields the equivalent object. Moreover the parser accepts an already-decoded
object as-is, and fails when the final decoded value is not an object. -/
theorem C4_json_recovery (prose1 prose2 : List Char)
    (fs : List (List Char × Json)) (loads : List Char → Option Json)
    (hp : '{' ∉ prose1)
    (hdirect : ∀ g, loads (fencedInput prose1 prose2 (serialize (Json.obj fs)))
      ≠ some (Json.obj g))
    (hround : loads (serialize (Json.obj fs)) = some (Json.obj fs)) :
    extractFirstJsonObject (fencedInput prose1 prose2 (serialize (Json.obj fs)))
      = some (serialize (Json.obj fs)) ∧
    parseModelJson loads
        (.str (fencedInput prose1 prose2 (serialize (Json.obj fs))))
      = some (Json.obj fs) ∧
    (∀ fields, parseModelJson loads (.obj fields) = some (Json.obj fields)) ∧
    (∀ s cand v2, (∀ g, loads s ≠ some (Json.obj g)) →
      extractFirstJsonObject s = some cand → loads cand = some v2 →
      (∀ g, v2 ≠ Json.obj g) → parseModelJson loads (.str s) = none) := by
  have hA : '{' ∉ prose1 ++ ['\n', '`', '`', '`', 'j', 's', 'o', 'n', '\n'] := by
    simp only [List.mem_append]
    rintro (h | h)
    · exact hp h
    · simp at h
  have hAnl : (prose1 ++ ['\n', '`', '`', '`', 'j', 's', 'o', 'n', '\n']).getLast?
      = some '\n' := by
    rw [List.getLast?_append]
    rfl
  have hext := extractFirstJsonObject_fenced
    (prose1 ++ ['\n', '`', '`', '`', 'j', 's', 'o', 'n', '\n']) ('\n' :: prose2)
    fs hA hAnl
  have hext2 : extractFirstJsonObject
      (fencedInput prose1 prose2 (serialize (Json.obj fs)))
      = some (serialize (Json.obj fs)) := by
    rw [fencedInput]
    exact hext
  have hfall : ∀ s2, (∀ g, loads s2 ≠ some (Json.obj g)) →
      parseModelJson loads (.str s2) = extractAndDecode loads s2 := by
    intro s2 hnd
    cases hl : loads s2 with
    | none => simp [parseModelJson, hl]
    | some v =>
      cases v with
      | obj g => exact absurd hl (hnd g)
      | null => simp [parseModelJson, hl]
      | bool b => simp [parseModelJson, hl]
      | num n => simp [parseModelJson, hl]
      | str s3 => simp [parseModelJson, hl]
      | arr a => simp [parseModelJson, hl]
  refine ⟨hext2, ?_, fun fields => rfl, ?_⟩
  · rw [hfall _ hdirect]
    simp [extractAndDecode, hext2, hround]
  · intro s cand v2 hnd hcand hv2 hno
    rw [hfall s hnd]
    cases v2 with
    | obj g => exact absurd rfl (hno g)
    | null => simp [extractAndDecode, hcand, hv2]
    | bool b => simp [extractAndDecode, hcand, hv2]
    | num n => simp [extractAndDecode, hcand, hv2]
    | str s3 => simp [extractAndDecode, hcand, hv2]
    | arr a => simp [extractAndDecode, hcand, hv2]

/-- Witness for C4 (amended) at a concrete input: empty prose around the
fenced serialization of the object with field `a = true`, and a `loads` that
decodes exactly that serialization. -/
theorem C4_json_recovery_witness :
    extractFirstJsonObject
        (fencedInput [] [] (serialize (Json.obj [(['a'], Json.bool true)])))
      = some (serialize (Json.obj [(['a'], Json.bool true)])) ∧
    parseModelJson
        (fun s => if s = serialize (Json.obj [(['a'], Json.bool true)])
          then some (Json.obj [(['a'], Json.bool true)]) else none)
        (.str (fencedInput [] []
          (serialize (Json.obj [(['a'], Json.bool true)]))))
      = some (Json.obj [(['a'], Json.bool true)]) := by
  have hne : fencedInput [] [] (serialize (Json.obj [(['a'], Json.bool true)]))
      ≠ serialize (Json.obj [(['a'], Json.bool true)]) := by
    intro he
    have hlen := congrArg List.length he
    simp only [fencedInput, List.length_append, List.nil_append,
      List.length_cons] at hlen
    omega
  have h := C4_json_recovery [] [] [(['a'], Json.bool true)]
    (fun s => if s = serialize (Json.obj [(['a'], Json.bool true)])
      then some (Json.obj [(['a'], Json.bool true)]) else none)
    (by simp)
    (by
      intro g hg
      simp only [hne, if_false] at hg
      exact Option.noConfusion hg)
    (by simp)
  exact ⟨h.1, h.2.1⟩

/-- Counterexample to C4 as stated: with `{` occurring in the prose before
the fenced block, the scanner starts at the prose's brace and never balances,
so the extractor raises instead of returning the fenced object. -/
theorem C4_counterexample :
    extractFirstJsonObject
        (fencedInput ['{', 'x'] [] (serialize (Json.obj [(['a'], Json.bool true)])))
      = none := by
  decide

end MonarchPhenology
